import Mathlib

/-!
Verification of the nockchain proof-acceleration core: a shallow embedding of
the parallel NTT / FFT polynomial engine (`bp_jets_parallel.rs`), the domain
cache (`domain_cache.rs`) and the mining dispatcher (`mining.rs`), together
with theorems settling the frozen claims about them.

Field elements (`Belt`) are integers modulo the fixed 64-bit prime
P = 2^64 - 2^32 + 1.  The scalar field operations, the sequential `bp_ntt`,
the naive `bpmul` and `ordered_root` live in the crate `form::math`, whose
source is not part of the audited tree; they are modelled from the spec
(section 4.1/4.2) where noted.  Arrays are embedded as functions
`Nat → Belt` (index reads/writes become function reads/updates); parallel
loops over disjoint index regions are embedded by the per-index value each
task computes from the shared pre-loop state.
-/

set_option maxRecDepth 100000

/-- Modelled from the spec: the fixed 64-bit prime modulus P = 2^64 - 2^32 + 1
of the scalar field (spec section 3, FieldElement). -/
def PRIME : Nat := 18446744069414584321

/-- Modelled from the spec: a field element is an integer modulo PRIME, every
stored value reduced into [0, PRIME).  `ZMod PRIME` is exactly that value
type with the modular ring operations. -/
abbrev Belt := ZMod PRIME

/-- Fuel-driven binary exponentiation: square the base, halve the exponent.
The fuel only bounds the recursion depth; `fuel = e` always suffices. -/
def bpowAux : Nat → Belt → Nat → Belt
  | 0, _, _ => 1
  | fuel+1, b, e =>
      if e = 0 then 1
      else
        let r := bpowAux fuel (b * b) (e / 2)
        if e % 2 = 1 then r * b else r

/-- Modelled from the spec: `pow(base, exponent)` by binary exponentiation
(spec section 4.1); the source lives in `form::math::bpow`, outside the
audited tree. -/
def bpow (b : Belt) (e : Nat) : Belt := bpowAux e b e

/-- Modelled from the spec: multiplicative inverse via Fermat exponentiation
(spec section 4.1, `inv`); undefined (0) for the zero element. -/
def binv (x : Belt) : Belt := bpow x (PRIME - 2)

/-- Typed failure of a scalar-field operation (`form::math::FieldError`,
outside the audited tree). -/
inductive FieldError where
  | orderedRootError
  deriving DecidableEq, Repr

/-- Modelled from the spec: `ordered_root(order)` returns a generator of the
unique cyclic subgroup of the given order of the multiplicative group, and
fails if no subgroup of that order exists, i.e. if the order does not divide
PRIME - 1 (spec section 4.1).  The subgroup generator is realised as
g^((P-1)/order) for the fixed generator g = 7 of the full group. -/
def ordered_root (n : Nat) : Except FieldError Belt :=
  if 0 < n ∧ n ∣ (PRIME - 1) then .ok (bpow 7 ((PRIME - 1) / n)) else .error .orderedRootError

/-- Fuel-driven floor base-2 logarithm; embeds `usize::ilog2` from the source
(`bp_jets_parallel.rs` line 202). -/
def log2f : Nat → Nat → Nat
  | 0, _ => 0
  | fuel+1, n => if n ≤ 1 then 0 else log2f fuel (n / 2) + 1

/-- Floor base-2 logarithm with self-fuel. -/
def ilog2 (n : Nat) : Nat := log2f n n

/-- Fuel-driven smallest power of two at or above `n`; embeds Rust
`usize::next_power_of_two` (`bp_jets_parallel.rs` line 310). -/
def nextPow2f : Nat → Nat → Nat
  | 0, _ => 1
  | fuel+1, n => if n ≤ 1 then 1 else 2 * nextPow2f fuel ((n + 1) / 2)

/-- Smallest power of two at or above `n` (1 for n = 0), as in Rust. -/
def next_power_of_two (n : Nat) : Nat := nextPow2f n n

/-- Bit reversal accumulator loop: `r = (r << 1) | (n & 1); n >>= 1`, run
`l` times (`bp_jets_parallel.rs` lines 173-180).  `r` is a `u32`, so the
shift wraps modulo 2^32 when `l` exceeds 32. -/
def bitrevAux : Nat → Nat → Nat → Nat
  | 0, _, r => r
  | l+1, n, r => bitrevAux l (n / 2) ((2 * r + n % 2) % 2 ^ 32)

/-- Reverse the low `l` bits of `n` (`fn bitreverse(n: u32, l: u32)`,
`bp_jets_parallel.rs` lines 172-180).  The argument is a `u32`: every call
site casts a wider index with `as u32`, which truncates modulo 2^32. -/
def bitreverse (n l : Nat) : Nat := bitrevAux l (n % 2 ^ 32) 0

/-- Structural formulation of bit reversal used in proofs: peel the low bit
of `n` and emit it as the high bit of the result. -/
def brev : Nat → Nat → Nat
  | 0, _ => 0
  | l+1, n => brev l (n / 2) + (n % 2) * 2 ^ l

/-- Array write at one index, on the function embedding of arrays. -/
def updF (x : Nat → Belt) (i : Nat) (v : Belt) : Nat → Belt :=
  fun t => if t = i then v else x t

/-- Swap of two array slots (`x.swap(k, rk)`, `bp_jets_parallel.rs` line 248). -/
def swapF (x : Nat → Belt) (i j : Nat) : Nat → Belt :=
  fun t => if t = i then x j else if t = j then x i else x t

/-- Sequential in-place bit-reversal permutation: the loop
`for k in 0..n as u32 { rk = bitreverse(k, log_n); if k < rk { x.swap(k, rk) } }`
(`bp_jets_parallel.rs` lines 244-251); the first argument is the number of
loop iterations (the caller passes the `u32`-truncated bound `n as u32`). -/
def bitrevSwapAux (logn : Nat) : Nat → (Nat → Belt) → Nat → Belt
  | 0, x => x
  | k+1, x =>
      let y := bitrevSwapAux logn k x
      if k < bitreverse k logn then swapF y k (bitreverse k logn) else y

/-- Simple parallel bit-reversal gather, one task per destination index:
`x_permuted[k] = x[bitreverse(k, log_n)]` (`bp_jets_parallel.rs`
lines 219-226). -/
def bitrevGather (logn : Nat) (x : Nat → Belt) : Nat → Belt :=
  fun k => x (bitreverse k logn)

/-- One written chunk of a rayon `par_chunks_mut` loop: indices in
`[start, start+len)` receive `f t`, others keep the previous state. -/
def writeSeg (f : Nat → Belt) (start len : Nat) (x : Nat → Belt) : Nat → Belt :=
  fun t => if start ≤ t ∧ t < start + len then f t else x t

/-- Chunked tabulation as performed by `par_chunks_mut(c)` over a length-`n`
buffer: chunk `i` starts at `i*c` and has `min c (n - i*c)` slots, each slot
`t` receiving `f t`; the first `Nat` argument is the number of chunks. -/
def chunkedTab (f : Nat → Belt) (c n : Nat) : Nat → (Nat → Belt) → Nat → Belt
  | 0, x => x
  | i+1, x => writeSeg f (i * c) (min c (n - i * c)) (chunkedTab f c n i x)

/-- Chunked parallel bit-reversal gather into a fresh zeroed buffer, chunk
size `n / threads` (`bp_jets_parallel.rs` lines 228-238). -/
def chunkedGather (threads n logn : Nat) (x : Nat → Belt) : Nat → Belt :=
  let c := n / threads
  chunkedTab (fun k => x (bitreverse k logn)) c n ((n + c - 1) / c) (fun _ => 0)

/-- Inner butterfly loop of one group starting at `k` with half-width `m`:
`for j in 0..m { u = x[k+j]; v = x[k+j+m]*w; x[k+j] = u+v; x[k+j+m] = u-v;
w = w*w_m }` (`bp_jets_parallel.rs` lines 266-281 and 289-295); the first
`Nat` argument is the number of iterations left, the second the current `j`. -/
def bflyJAux (w_m : Belt) (k m : Nat) : Nat → Nat → Belt → (Nat → Belt) → Nat → Belt
  | 0, _, _, x => x
  | steps+1, j, w, x =>
      let u := x (k + j)
      let v := x (k + j + m) * w
      bflyJAux w_m k m steps (j+1) (w * w_m) (updF (updF x (k + j) (u + v)) (k + j + m) (u - v))

/-- One butterfly group: the inner loop started at `j = 0`, `w = 1`. -/
def bflyGroup (w_m : Belt) (k m : Nat) (x : Nat → Belt) : Nat → Belt :=
  bflyJAux w_m k m m 0 1 x

/-- Sequential group loop of one stage: `k` advances by `2m` until `n`
(`bp_jets_parallel.rs` lines 284-298); the first `Nat` argument is the
number of groups left. -/
def bflyKAux (w_m : Belt) (m : Nat) : Nat → Nat → (Nat → Belt) → Nat → Belt
  | 0, _, x => x
  | g+1, k, x => bflyKAux w_m m g (k + 2 * m) (bflyGroup w_m k m x)

/-- Sequential butterfly stage: `n / (2m)` groups processed in order. -/
def bflyStageSeq (w_m : Belt) (m n : Nat) (x : Nat → Belt) : Nat → Belt :=
  bflyKAux w_m m (n / (2 * m)) 0 x

/-- Parallel butterfly stage (`bp_jets_parallel.rs` lines 259-282): one task
per group, each computing its group from the shared pre-stage state; the
groups write disjoint index ranges, so index `t` receives the value its own
group (`t / 2m`) computes for it. -/
def bflyStagePar (w_m : Belt) (m n : Nat) (x : Nat → Belt) : Nat → Belt :=
  fun t => if t < n then bflyGroup w_m (2 * m * (t / (2 * m))) m x t else x t

/-- Stage loop of the parallel NTT (`bp_jets_parallel.rs` lines 253-302):
the stage counter runs `log n` times with `m` doubling; a stage runs its
groups in parallel when `bflyThresh ≤ m` and more than one thread is
configured (source constant `bflyThresh = 8`), sequentially otherwise. -/
def nttStages (threads bflyThresh : Nat) (root : Belt) (n : Nat) :
    Nat → Nat → (Nat → Belt) → Nat → Belt
  | 0, _, x => x
  | s+1, m, x =>
      let w_m := bpow root (n / (2 * m))
      let y := if bflyThresh ≤ m ∧ 1 < threads then bflyStagePar w_m m n x
               else bflyStageSeq w_m m n x
      nttStages threads bflyThresh root n s (2 * m) y

/-- Purely sequential stage loop (every stage through the sequential branch). -/
def nttStagesSeq (root : Belt) (n : Nat) : Nat → Nat → (Nat → Belt) → Nat → Belt
  | 0, _, x => x
  | s+1, m, x => nttStagesSeq root n s (2 * m) (bflyStageSeq (bpow root (n / (2 * m))) m n x)

/-- Read a coefficient list as an array function (0 beyond the end). -/
def toFun (bp : List Belt) : Nat → Belt := fun i => bp.getD i 0

/-- Materialise the first `n` slots of an array function as a list. -/
def ofFun (f : Nat → Belt) (n : Nat) : List Belt := (List.range n).map f

/-- The parallel NTT of `bp_jets_parallel.rs` lines 193-305 with the three
size thresholds (bit-reversal parallel threshold, chunked-gather threshold,
butterfly parallel threshold; source constants 32, 256, 8) and the thread
count as parameters: length-1 input returns immediately; the bit-reversal
permutation runs as a parallel gather when `brThresh ≤ n` and more than one
thread is configured (simple gather below `chunkThresh`, chunked gather at
or above it) and as the sequential swap loop otherwise — whose iteration
count is the `u32`-truncated `n as u32`, i.e. `n % 2^32` (source line 245);
then the staged butterflies run. -/
def bp_ntt_paramT (threads brThresh chunkThresh bflyThresh : Nat)
    (bp : List Belt) (root : Belt) : List Belt :=
  let n := bp.length
  if n = 1 then [bp.headD 0]
  else
    let logn := ilog2 n
    let x := toFun bp
    let y := if brThresh ≤ n ∧ 1 < threads then
               (if n < chunkThresh then bitrevGather logn x else chunkedGather threads n logn x)
             else bitrevSwapAux logn (n % 2 ^ 32) x
    ofFun (nttStages threads bflyThresh root n logn 1 y) n

/-- The parallel NTT exactly as in the source, with its threshold constants
32, 256 and 8 (`fn bp_ntt_parallel`, `bp_jets_parallel.rs` lines 193-305). -/
def bp_ntt_parallel (threads : Nat) (bp : List Belt) (root : Belt) : List Belt :=
  bp_ntt_paramT threads 32 256 8 bp root

/-- Modelled from the spec: the sequential iterative Cooley-Tukey NTT
(spec section 4.2; `form::math::bpoly::bp_ntt`, outside the audited tree):
the full `n`-iteration sequential bit-reversal permutation followed by the
sequential staged butterflies.  Unlike the sequential branch of
`bp_ntt_parallel`, the reference transform's loop bound is not truncated
to `u32`, so the two differ at length 2^32. -/
def bp_ntt (bp : List Belt) (root : Belt) : List Belt :=
  let n := bp.length
  if n = 1 then [bp.headD 0]
  else
    let logn := ilog2 n
    ofFun (nttStagesSeq root n logn 1 (bitrevSwapAux logn n (toFun bp))) n

/-- Parallel forward FFT: derive the root for the input length, then run the
parallel NTT (`fn bp_fft_parallel`, `bp_jets_parallel.rs` lines 183-187). -/
def bp_fft_parallel (threads : Nat) (input : List Belt) : Except FieldError (List Belt) := do
  let root ← ordered_root input.length
  .ok (bp_ntt_parallel threads input root)

/-- Pointwise product of the two transformed operands
(`bp_jets_parallel.rs` lines 327-342): chunked parallel multiply when
`32 ≤ padded_len` and more than one thread is configured, a sequential loop
otherwise; both write `c[i] = a[i] * b[i]` into a zeroed buffer. -/
def bpmul_pointwise (threads padded : Nat) (afft bfft : List Belt) : List Belt :=
  if 32 ≤ padded ∧ 1 < threads then
    let c := padded / threads
    ofFun (chunkedTab (fun i => toFun afft i * toFun bfft i) c padded
      ((padded + c - 1) / c) (fun _ => 0)) padded
  else
    ofFun (fun i => toFun afft i * toFun bfft i) padded

/-- FFT-based polynomial multiplication (`fn bpmul_fft_parallel`,
`bp_jets_parallel.rs` lines 308-357): pad both operands to the next power of
two at or above the result length, forward-transform both, multiply
pointwise, inverse-transform with the inverse root, scale by the inverse of
the padded length and truncate to the result length. -/
def bpmul_fft_parallel (threads : Nat) (a b : List Belt) (result_len : Nat) :
    Except FieldError (List Belt) :=
  let n := result_len
  let padded_len := next_power_of_two n
  let a_padded := a ++ List.replicate (padded_len - a.length) 0
  let b_padded := b ++ List.replicate (padded_len - b.length) 0
  do
    let a_fft ← bp_fft_parallel threads a_padded
    let b_fft ← bp_fft_parallel threads b_padded
    let c_fft := bpmul_pointwise threads padded_len a_fft b_fft
    let root ← ordered_root padded_len
    let c_result := bp_ntt_parallel threads c_fft (binv root)
    let n_inv := binv (padded_len : Belt)
    .ok ((c_result.map (fun x => x * n_inv)).take n)

/-- Modelled from the spec: naive O(n^2) polynomial multiplication
(spec section 8; `form::math::bpoly::bpmul`, outside the audited tree):
coefficient `i` of the product is the convolution sum over the index pairs
adding to `i`, result length `len a + len b - 1`. -/
def bpmul (a b : List Belt) : List Belt :=
  (List.range (a.length + b.length - 1)).map
    (fun i => ∑ j ∈ Finset.range (i + 1), toFun a j * toFun b (i - j))

/-- Evaluation form of the NTT used in proofs: coefficient `t` of the
transform is the evaluation of the input polynomial at `root ^ t`. -/
def dft (x : List Belt) (root : Belt) : List Belt :=
  (List.range x.length).map
    (fun t => ∑ j ∈ Finset.range x.length, toFun x j * root ^ (t * j))

/-- Outcome of a jet invocation as seen by the process: a packed result, a
typed failure (`jet_err()`) surfaced to the caller, or a process panic. -/
inductive JetOutcome (α : Type) where
  | ok (val : α)
  | err
  | panicked
  deriving DecidableEq

/-- The Hadamard-product jet (`fn bp_hadamard_parallel_jet`,
`bp_jets_parallel.rs` lines 137-169): arguments that fail to parse as
polynomials surface `jet_err()`; then `assert_eq!(bp_poly.len(), bq_poly.len())`
panics the process on a length mismatch; equal-length inputs are multiplied
elementwise (chunked in parallel when `32 < len` and more than one thread is
configured, sequentially otherwise). -/
def bp_hadamard_parallel_jet (threads : Nat) (bp bq : Option (List Belt)) :
    JetOutcome (List Belt) :=
  match bp, bq with
  | some p, some q =>
      if p.length = q.length then
        let n := p.length
        if 32 < n ∧ 1 < threads then
          let c := (n + threads - 1) / threads
          .ok (ofFun (chunkedTab (fun i => toFun p i * toFun q i) c n
            ((n + c - 1) / c) (fun _ => 0)) n)
        else
          .ok (ofFun (fun i => toFun p i * toFun q i) n)
      else .panicked
  | _, _ => .err

/-- Cached per-domain data (`struct DomainData`, `domain_cache.rs`
lines 18-29). -/
structure DomainData where
  powers : List Belt
  twiddle_factors : List Belt
  inv_twiddles : List Belt
  deriving DecidableEq

/-- Powers of the offset accumulated by repeated multiplication
(`domain_cache.rs` lines 85-95); first argument counts remaining slots. -/
def offsetPowersAux : Nat → Belt → Belt → List Belt
  | 0, _, _ => []
  | i+1, power, offset => power :: offsetPowersAux i (power * offset) offset

/-- The offset-power sequence `[1, c, c^2, ...]` of length `size`. -/
def offsetPowers (size : Nat) (offset : Belt) : List Belt :=
  offsetPowersAux size 1 offset

/-- The DomainData computed for a key (`DomainCache::precompute_domain`,
`domain_cache.rs` lines 84-106): the offset powers, with the twiddle and
inverse-twiddle slots filled by placeholder copies of those powers (the
source comments: for now, placeholder twiddle factors; in full
implementation these would be nth roots of unity). -/
def precomputeData (size offset : Nat) : DomainData :=
  let powers := offsetPowers size (offset : Belt)
  { powers := powers, twiddle_factors := powers, inv_twiddles := powers }

/-- Association-list lookup for the domain map, first match wins. -/
def findData : List ((Nat × Nat) × DomainData) → Nat × Nat → Option DomainData
  | [], _ => none
  | e :: rest, k => if e.1 = k then some e.2 else findData rest k

/-- The domain cache (`struct DomainCache`, `domain_cache.rs` lines 37-47):
the key-to-data map plus the hit/miss and per-operation call counters. -/
structure DomainCache where
  domains : List ((Nat × Nat) × DomainData)
  hits : Nat
  misses : Nat
  bp_shift_calls : Nat
  bp_intercosate_calls : Nat
  deriving DecidableEq

/-- Precompute and insert a key unless already present
(`DomainCache::precompute_domain`, `domain_cache.rs` lines 73-110);
counters are untouched. -/
def DomainCache.precompute_domain (c : DomainCache) (size offset : Nat) : DomainCache :=
  if (findData c.domains (size, offset)).isSome then c
  else { c with domains := c.domains ++ [((size, offset), precomputeData size offset)] }

/-- A fresh cache pre-populated with sizes 2^5 .. 2^12 at offset 1
(`DomainCache::new`, `domain_cache.rs` lines 51-70). -/
def DomainCache.new : DomainCache :=
  (List.range 8).foldl (fun c i => c.precompute_domain (2 ^ (5 + i)) 1)
    { domains := [], hits := 0, misses := 0, bp_shift_calls := 0, bp_intercosate_calls := 0 }

/-- Cache lookup (`DomainCache::get`, `domain_cache.rs` lines 113-124): a
present key increments the hit counter and returns the stored data; an
absent key increments the miss counter and returns nothing — the map itself
is not modified in either case. -/
def DomainCache.get (c : DomainCache) (size offset : Nat) : Option DomainData × DomainCache :=
  if (findData c.domains (size, offset)).isSome then
    (findData c.domains (size, offset), { c with hits := c.hits + 1 })
  else
    (none, { c with misses := c.misses + 1 })

/-- Multiply coefficient `i` by `power * step^i`, accumulating the power as
the source loop does (`domain_cache.rs` lines 263-268 and 305-310). -/
def mulPowersAux : List Belt → Belt → Belt → List Belt
  | [], _, _ => []
  | coeff :: rest, power, step => (coeff * power) :: mulPowersAux rest (power * step) step

/-- Shared tail of both `bp_intercosate` paths (`domain_cache.rs`
lines 256-268 and 298-310): scale every inverse-transform coefficient by
1/order, then multiply coefficient `i` by `(offset⁻¹)^i`. -/
def intercosate_post (order : Nat) (offset : Belt) (ifft : List Belt) : List Belt :=
  let n_inv := binv (order : Belt)
  mulPowersAux (ifft.map (fun coeff => coeff * n_inv)) 1 (binv offset)

/-- Cached path of `bp_intercosate_cached_jet` (`domain_cache.rs`
lines 233-279), taken when the cache holds the key: if the cached
`inv_twiddles` list is nonempty the inverse transform runs with its first
element as root, otherwise with the inverse of `ordered_root(order)`; then
the shared scale-and-shift tail runs. -/
def bp_intercosate_cached (order offset : Nat) (values : List Belt)
    (data : DomainData) : Except FieldError (List Belt) := do
  let ifft ←
    if data.inv_twiddles.isEmpty then do
      let root ← ordered_root order
      Except.ok (bp_ntt values (binv root))
    else
      Except.ok (bp_ntt values (data.inv_twiddles.headD 0))
  .ok (intercosate_post order (offset : Belt) ifft)

/-- Fallback path of `bp_intercosate_cached_jet` (`domain_cache.rs`
lines 280-322), taken on a cache miss: inverse transform with the inverse of
`ordered_root(order)`, then the shared scale-and-shift tail. -/
def bp_intercosate_fallback (order offset : Nat) (values : List Belt) :
    Except FieldError (List Belt) := do
  let root ← ordered_root order
  .ok (intercosate_post order (offset : Belt) (bp_ntt values (binv root)))

/-- Worker-pool termination event as it reaches the dispatcher control loop
(`mining.rs` line 248): `JoinSet::join_next` yields the worker id on normal
completion and a join error when the worker task panicked. -/
inductive WorkerExit where
  | completed (worker_id : Nat)
  | panicked
  deriving DecidableEq

/-- Supervisor reaction to one termination event (`mining.rs`
lines 249-266), as the list of worker ids respawned in that arm: a normal
completion respawns the same slot id exactly once; a panic is only logged
and respawns nothing. -/
def superviseWorkerExit : WorkerExit → List Nat
  | .completed wid => [wid]
  | .panicked => []

/-- Whether the control loop keeps running after handling the event: both
match arms fall through to the next `select!` iteration (`mining.rs`
lines 216-269 contain no break or return). -/
def controlLoopContinues (_e : WorkerExit) : Bool := true

/-- Fixed candidate-queue capacity (`MAX_MINING_QUEUE`, `mining.rs`
line 122). -/
def MAX_MINING_QUEUE : Nat := 32

/-- Result of a non-blocking enqueue attempt. -/
inductive TrySendOutcome where
  | accepted
  | fullDropped
  deriving DecidableEq

/-- Modelled from the spec: `try_send` on the bounded tokio channel of
capacity `MAX_MINING_QUEUE` (external library; spec sections 3 and 4.4):
below capacity the candidate is appended, at capacity it is rejected
immediately, never blocking the producer. -/
def try_send (q : List Nat) (c : Nat) : List Nat × TrySendOutcome :=
  if q.length < MAX_MINING_QUEUE then (q ++ [c], .accepted) else (q, .fullDropped)

/-- Dispatcher handling of one mine effect (`mining.rs` lines 235-244):
attempt a non-blocking enqueue; a full queue drops the newest candidate and
reports the drop (the returned flag), leaving the queue unchanged. -/
def dispatchCandidate (q : List Nat) (c : Nat) : List Nat × Bool :=
  match try_send q c with
  | (q2, .accepted) => (q2, false)
  | (q2, .fullDropped) => (q2, true)

/-- Worker count from the total thread budget
(`fn calculate_optimal_workers`, `mining.rs` lines 131-138): 1 for budgets
1-4, 2 for 5-8, 4 for 9-16, and `budget / 4` otherwise (the catch-all arm
also receives budget 0). -/
def calculate_optimal_workers (total_threads : Nat) : Nat :=
  if 1 ≤ total_threads ∧ total_threads ≤ 4 then 1
  else if 5 ≤ total_threads ∧ total_threads ≤ 8 then 2
  else if 9 ≤ total_threads ∧ total_threads ≤ 16 then 4
  else total_threads / 4

/-- Driver sizing step (`mining.rs` lines 192-193): the worker count and the
per-worker thread share `total_threads / worker_count`; a zero worker count
makes that Rust division panic, modelled as `none`. -/
def driverWorkerSetup (total_threads : Nat) : Option (Nat × Nat) :=
  let worker_count := calculate_optimal_workers total_threads
  if worker_count = 0 then none
  else some (worker_count, total_threads / worker_count)

/-- The worker ids the driver spawns (`for worker_id in 0..worker_count`,
`mining.rs` lines 204-214), reached only if the sizing step did not panic. -/
def spawnedWorkers (total_threads : Nat) : Option (List Nat) :=
  (driverWorkerSetup total_threads).map (fun p => List.range p.1)

/-! ### Dispatcher, queue and cache claims -/

lemma calculate_optimal_workers_le_succ (t : Nat) :
    calculate_optimal_workers t ≤ calculate_optimal_workers (t + 1) := by
  rcases Nat.lt_or_ge t 17 with h | h
  · interval_cases t <;> decide
  · have h1 : ¬(1 ≤ t ∧ t ≤ 4) := by omega
    have h2 : ¬(5 ≤ t ∧ t ≤ 8) := by omega
    have h3 : ¬(9 ≤ t ∧ t ≤ 16) := by omega
    have h4 : ¬(1 ≤ t + 1 ∧ t + 1 ≤ 4) := by omega
    have h5 : ¬(5 ≤ t + 1 ∧ t + 1 ≤ 8) := by omega
    have h6 : ¬(9 ≤ t + 1 ∧ t + 1 ≤ 16) := by omega
    simp only [calculate_optimal_workers, if_neg h1, if_neg h2, if_neg h3,
      if_neg h4, if_neg h5, if_neg h6]
    exact Nat.div_le_div_right (Nat.le_succ t)

lemma calculate_optimal_workers_monotone : Monotone calculate_optimal_workers :=
  monotone_nat_of_le_succ calculate_optimal_workers_le_succ

/-- C9: the worker-count function returns exactly 1 for every budget from 1
to 4, is monotone non-decreasing in the budget, and equals `budget / 4` for
every budget of at least 16. -/
theorem c9_worker_count_step_function :
    (∀ t, 1 ≤ t → t ≤ 4 → calculate_optimal_workers t = 1) ∧
    (∀ t u, t ≤ u → calculate_optimal_workers t ≤ calculate_optimal_workers u) ∧
    (∀ t, 16 ≤ t → calculate_optimal_workers t = t / 4) := by
  refine ⟨?_, ?_, ?_⟩
  · intro t h1 h4
    interval_cases t <;> decide
  · intro t u h
    exact calculate_optimal_workers_monotone h
  · intro t h
    rcases Nat.eq_or_lt_of_le h with h16 | h17
    · rw [← h16]; decide
    · have h1 : ¬(1 ≤ t ∧ t ≤ 4) := by omega
      have h2 : ¬(5 ≤ t ∧ t ≤ 8) := by omega
      have h3 : ¬(9 ≤ t ∧ t ≤ 16) := by omega
      simp only [calculate_optimal_workers, if_neg h1, if_neg h2, if_neg h3]

/-- Witness for C9 at concrete budgets: 3 gives one worker, 7 gives at most
as many workers as 12, and 40 gives 10 workers. -/
theorem c9_worker_count_step_function_witness :
    calculate_optimal_workers 3 = 1 ∧
    calculate_optimal_workers 7 ≤ calculate_optimal_workers 12 ∧
    calculate_optimal_workers 40 = 10 :=
  ⟨c9_worker_count_step_function.1 3 (by decide) (by decide),
   c9_worker_count_step_function.2.1 7 12 (by decide),
   by rw [c9_worker_count_step_function.2.2 40 (by decide)]⟩

/-- C10 counterexample: with a configured budget of 0 the driver does not
proceed to spawn an empty worker set — the sizing step already fails
(`total_threads / worker_count` is a Rust division by zero, a panic), so the
spawn loop is never reached. -/
theorem c10_budget_zero_driver_panics : spawnedWorkers 0 ≠ some [] ∧ spawnedWorkers 0 = none := by
  decide

/-- C10 as amended: the worker-count function itself returns 0 for budget 0
and at least 1 for every budget of at least 1; however at budget 0 the
driver panics computing the per-worker thread share (0 / 0) instead of
running with no workers. -/
theorem c10_worker_count_zero_amended :
    calculate_optimal_workers 0 = 0 ∧
    driverWorkerSetup 0 = none ∧
    (∀ t, 1 ≤ t → 1 ≤ calculate_optimal_workers t ∧
      driverWorkerSetup t = some (calculate_optimal_workers t, t / calculate_optimal_workers t)) :=
  by
  refine ⟨by decide, by decide, ?_⟩
  intro t ht
  have hpos : 1 ≤ calculate_optimal_workers t := by
    rcases Nat.lt_or_ge t 17 with h | h
    · interval_cases t <;> decide
    · have h1 : ¬(1 ≤ t ∧ t ≤ 4) := by omega
      have h2 : ¬(5 ≤ t ∧ t ≤ 8) := by omega
      have h3 : ¬(9 ≤ t ∧ t ≤ 16) := by omega
      simp only [calculate_optimal_workers, if_neg h1, if_neg h2, if_neg h3]
      omega
  refine ⟨hpos, ?_⟩
  simp only [driverWorkerSetup, if_neg (by omega : ¬calculate_optimal_workers t = 0)]

/-- Witness for C10 as amended at budget 5: two workers, two threads each. -/
theorem c10_worker_count_zero_amended_witness :
    1 ≤ calculate_optimal_workers 5 ∧ driverWorkerSetup 5 = some (2, 2) := by
  have h := c10_worker_count_zero_amended.2.2 5 (by decide)
  exact ⟨h.1, by rw [h.2]; decide⟩

/-- C4 counterexample: a worker termination by panic is not restarted at
all — the supervisor arm only logs it, respawning no slot, though the
control loop does continue. -/
theorem c4_panic_not_restarted :
    superviseWorkerExit .panicked = [] ∧ controlLoopContinues .panicked = true := by
  decide

/-- C4 as amended: a normal worker completion is restarted exactly once with
the same slot id and the control loop keeps running; a worker panic is
caught (the loop keeps running) but, unlike a clean termination, respawns
nothing. -/
theorem c4_supervisor_restart_amended :
    (∀ wid, superviseWorkerExit (.completed wid) = [wid] ∧
      controlLoopContinues (.completed wid) = true) ∧
    (superviseWorkerExit .panicked = [] ∧ controlLoopContinues .panicked = true) :=
  ⟨fun _ => ⟨rfl, rfl⟩, rfl, rfl⟩

/-- C7 counterexample: a Hadamard invocation with operand lengths 1 and 2
panics the process (the jet asserts equal lengths) instead of surfacing the
typed failure the claim requires. -/
theorem c7_hadamard_mismatch_panics :
    bp_hadamard_parallel_jet 1 (some [1]) (some [1, 2]) = .panicked ∧
    bp_hadamard_parallel_jet 1 (some [1]) (some [1, 2]) ≠ .err := by
  decide

/-- C7 as amended: every Hadamard invocation with unequal operand lengths
panics the process via the equal-length assertion (never a typed failure),
while arguments that fail to parse as polynomials do surface a typed
failure. -/
theorem c7_hadamard_mismatch_amended :
    (∀ threads (p q : List Belt), p.length ≠ q.length →
      bp_hadamard_parallel_jet threads (some p) (some q) = .panicked) ∧
    (∀ threads q, bp_hadamard_parallel_jet threads none q = .err) := by
  constructor
  · intro threads p q hne
    simp only [bp_hadamard_parallel_jet, if_neg hne]
  · intro threads q
    rfl

/-- Witness for C7 as amended at the concrete mismatched input. -/
theorem c7_hadamard_mismatch_amended_witness :
    ([1] : List Belt).length ≠ ([1, 2] : List Belt).length ∧
    bp_hadamard_parallel_jet 2 (some [1]) (some [1, 2]) = .panicked :=
  ⟨by decide, c7_hadamard_mismatch_amended.1 2 [1] [1, 2] (by decide)⟩

/-- C8: enqueueing a candidate never blocks — below capacity the candidate
is appended with no drop report, at capacity the queue is left unchanged at
exactly its capacity and the drop of the newest candidate is reported, and
occupancy never exceeds the capacity bound. -/
theorem c8_bounded_queue_drop_newest :
    ∀ (q : List Nat) (c : Nat),
      (q.length < MAX_MINING_QUEUE → dispatchCandidate q c = (q ++ [c], false)) ∧
      (q.length = MAX_MINING_QUEUE →
        dispatchCandidate q c = (q, true) ∧ (dispatchCandidate q c).1.length = MAX_MINING_QUEUE) ∧
      (q.length ≤ MAX_MINING_QUEUE → (dispatchCandidate q c).1.length ≤ MAX_MINING_QUEUE) := by
  intro q c
  refine ⟨?_, ?_, ?_⟩
  · intro h
    simp only [dispatchCandidate, try_send, if_pos h]
  · intro h
    have hnot : ¬q.length < MAX_MINING_QUEUE := by omega
    constructor
    · simp only [dispatchCandidate, try_send, if_neg hnot]
    · simp only [dispatchCandidate, try_send, if_neg hnot]
      exact h
  · intro h
    rcases Nat.lt_or_ge q.length MAX_MINING_QUEUE with hlt | hge
    · simp only [dispatchCandidate, try_send, if_pos hlt, List.length_append,
        List.length_cons, List.length_nil]
      omega
    · have hnot : ¬q.length < MAX_MINING_QUEUE := by omega
      simp only [dispatchCandidate, try_send, if_neg hnot]
      exact h

/-- Witness for C8: a queue of 31 accepts a candidate; a full queue of 32
drops it, stays at 32, and reports the drop. -/
theorem c8_bounded_queue_drop_newest_witness :
    (List.replicate 31 0).length < MAX_MINING_QUEUE ∧
    dispatchCandidate (List.replicate 31 0) 7 = (List.replicate 31 0 ++ [7], false) ∧
    (List.replicate 32 0).length = MAX_MINING_QUEUE ∧
    dispatchCandidate (List.replicate 32 0) 7 = (List.replicate 32 0, true) :=
  ⟨by decide,
   (c8_bounded_queue_drop_newest (List.replicate 31 0) 7).1 (by decide),
   by decide,
   ((c8_bounded_queue_drop_newest (List.replicate 32 0) 7).2.1 (by decide)).1⟩

/-- C3: evaluation of the module's own hit/miss scenario on the embedded
cache.  A never-before-seen key (37, 2) is requested twice on a fresh
cache: the first request is a miss, but `get` never inserts, so the second
request is another miss (miss counter 2, hit counter 0) and the key is still
absent afterwards — contradicting both the claim and the module's own unit
test, which expects the second request to be a hit. -/
theorem c3_missed_key_never_cached :
    ((DomainCache.new.get 37 2).2.get 37 2).1 = none ∧
    ((DomainCache.new.get 37 2).2.get 37 2).2.misses = 2 ∧
    ((DomainCache.new.get 37 2).2.get 37 2).2.hits = 0 ∧
    findData ((DomainCache.new.get 37 2).2.get 37 2).2.domains (37, 2) = none := by
  decide

/-- C2: at the precomputed key (order 32, offset 1) the cached path and the
fallback path of `bp_intercosate` disagree on the input polynomial with a
single 1 in slot 1: the cached path runs the inverse transform with the
placeholder root `inv_twiddles[0] = offset^0 = 1` instead of the inverse of
`ordered_root(32)` the fallback uses. -/
theorem c2_intercosate_cached_diverges_from_fallback :
    (bp_intercosate_cached 32 1 ((List.replicate 32 (0 : Belt)).set 1 1)
        (precomputeData 32 1)).toOption ≠
      (bp_intercosate_fallback 32 1 ((List.replicate 32 (0 : Belt)).set 1 1)).toOption := by
  decide

/-! ### Bit-reversal permutation -/

lemma bitrevAux_eq : ∀ (l n r : Nat), r < 2 ^ 32 →
    bitrevAux l n r = (r * 2 ^ l + brev l n) % 2 ^ 32 := by
  intro l
  induction l with
  | zero =>
      intro n r hr
      simp only [bitrevAux, brev, pow_zero, mul_one, add_zero]
      omega
  | succ l ih =>
      intro n r hr
      rw [bitrevAux, ih (n / 2) _ (Nat.mod_lt _ (by positivity)), brev]
      have hcong : ((2 * r + n % 2) % 2 ^ 32) * 2 ^ l + brev l (n / 2) ≡
          (2 * r + n % 2) * 2 ^ l + brev l (n / 2) [MOD 2 ^ 32] :=
        ((Nat.mod_modEq (2 * r + n % 2) (2 ^ 32)).mul_right (2 ^ l)).add_right _
      rw [Nat.ModEq] at hcong
      rw [hcong]
      congr 1
      ring

lemma brev_lt : ∀ (l n : Nat), brev l n < 2 ^ l := by
  intro l
  induction l with
  | zero => intro n; simp [brev]
  | succ l ih =>
      intro n
      rw [brev, pow_succ]
      have h1 := ih (n / 2)
      have h2 : n % 2 < 2 := Nat.mod_lt _ (by omega)
      nlinarith

lemma bitreverse_eq_brev (n l : Nat) (hl : l ≤ 32) (hn : n < 2 ^ 32) :
    bitreverse n l = brev l n := by
  rw [bitreverse, Nat.mod_eq_of_lt hn, bitrevAux_eq l n 0 (by positivity)]
  simp only [zero_mul, zero_add]
  exact Nat.mod_eq_of_lt
    (lt_of_lt_of_le (brev_lt l n) (Nat.pow_le_pow_right (by omega) hl))

lemma brev_two_mul_add (l k b : Nat) (hb : b < 2) :
    brev (l + 1) (2 * k + b) = brev l k + b * 2 ^ l := by
  rw [brev]
  have h1 : (2 * k + b) / 2 = k := by omega
  have h2 : (2 * k + b) % 2 = b := by omega
  rw [h1, h2]

lemma brev_add_pow : ∀ (l r b : Nat), b < 2 → r < 2 ^ l →
    brev (l + 1) (r + b * 2 ^ l) = 2 * brev l r + b := by
  intro l
  induction l with
  | zero =>
      intro r b hb hr
      interval_cases r
      interval_cases b <;> decide
  | succ l ih =>
      intro r b hb hr
      have hrk : r = 2 * (r / 2) + r % 2 := by omega
      have hr2 : r / 2 < 2 ^ l := by
        rw [pow_succ] at hr; omega
      have hmod : r % 2 < 2 := by omega
      calc brev (l + 1 + 1) (r + b * 2 ^ (l + 1))
          = brev (l + 1 + 1) (2 * (r / 2 + b * 2 ^ l) + r % 2) := by
            have hb2 : b * 2 ^ (l + 1) = 2 * (b * 2 ^ l) := by ring
            congr 1
            omega
        _ = brev (l + 1) (r / 2 + b * 2 ^ l) + (r % 2) * 2 ^ (l + 1) := by
            exact brev_two_mul_add (l + 1) (r / 2 + b * 2 ^ l) (r % 2) hmod
        _ = 2 * brev l (r / 2) + b + (r % 2) * 2 ^ (l + 1) := by
            rw [ih (r / 2) b hb hr2]
        _ = 2 * (brev l (r / 2) + (r % 2) * 2 ^ l) + b := by ring
        _ = 2 * brev (l + 1) r + b := by rw [brev]

lemma brev_brev : ∀ (l n : Nat), n < 2 ^ l → brev l (brev l n) = n := by
  intro l
  induction l with
  | zero => intro n hn; interval_cases n; decide
  | succ l ih =>
      intro n hn
      have hrep : n = 2 * (n / 2) + n % 2 := by omega
      have hdiv : n / 2 < 2 ^ l := by rw [pow_succ] at hn; omega
      have hmod : n % 2 < 2 := by omega
      calc brev (l + 1) (brev (l + 1) n)
          = brev (l + 1) (brev (l + 1) (2 * (n / 2) + n % 2)) := by rw [← hrep]
        _ = brev (l + 1) (brev l (n / 2) + (n % 2) * 2 ^ l) := by
            rw [brev_two_mul_add l (n / 2) (n % 2) hmod]
        _ = 2 * brev l (brev l (n / 2)) + n % 2 :=
            brev_add_pow l (brev l (n / 2)) (n % 2) hmod (brev_lt l (n / 2))
        _ = n := by rw [ih (n / 2) hdiv]; omega

lemma bitrevSwapAux_spec (logn : Nat) (hlogn : logn ≤ 32) (x : Nat → Belt) :
    ∀ c, c ≤ 2 ^ logn → ∀ t, t < 2 ^ logn →
      bitrevSwapAux logn c x t =
        if min t (brev logn t) < c ∧ t ≠ brev logn t then x (brev logn t) else x t := by
  have hp32 : (2 : Nat) ^ logn ≤ 2 ^ 32 := Nat.pow_le_pow_right (by omega) hlogn
  intro c
  induction c with
  | zero =>
      intro _ t _
      simp [bitrevSwapAux]
  | succ c ih =>
      intro hc t ht
      have hc' : c ≤ 2 ^ logn := by omega
      have hclt : c < 2 ^ logn := by omega
      have hRR : brev logn (brev logn t) = t := brev_brev logn t ht
      have hRc : brev logn (brev logn c) = c := brev_brev logn c hclt
      have hRlt : brev logn t < 2 ^ logn := brev_lt logn t
      have hRclt : brev logn c < 2 ^ logn := brev_lt logn c
      simp only [bitrevSwapAux]
      rw [bitreverse_eq_brev c logn hlogn (by omega)]
      by_cases hswap : c < brev logn c
      · rw [if_pos hswap]
        simp only [swapF]
        by_cases htc : t = c
        · subst htc
          rw [if_pos rfl, ih hc' (brev logn t) hRlt, hRR]
          rw [if_neg (by omega : ¬(min (brev logn t) t < t ∧ brev logn t ≠ t))]
          rw [if_pos (by omega : min t (brev logn t) < t + 1 ∧ t ≠ brev logn t)]
        · by_cases htr : t = brev logn c
          · rw [if_neg htc, if_pos htr, ih hc' c hclt]
            rw [if_neg (by omega : ¬(min c (brev logn c) < c ∧ c ≠ brev logn c))]
            have hbt : brev logn t = c := by rw [htr, hRc]
            rw [if_pos (by omega : min t (brev logn t) < c + 1 ∧ t ≠ brev logn t), hbt]
          · rw [if_neg htc, if_neg htr, ih hc' t ht]
            have hbtc : brev logn t ≠ c := by
              intro h
              refine htr ?_
              calc t = brev logn (brev logn t) := hRR.symm
                _ = brev logn c := by rw [h]
            by_cases hcond : min t (brev logn t) < c ∧ t ≠ brev logn t
            · rw [if_pos hcond,
                if_pos (by omega : min t (brev logn t) < c + 1 ∧ t ≠ brev logn t)]
            · rw [if_neg hcond,
                if_neg (by omega : ¬(min t (brev logn t) < c + 1 ∧ t ≠ brev logn t))]
      · rw [if_neg hswap]
        rw [ih hc' t ht]
        have hswap2 : brev logn c ≤ c := by omega
        by_cases hcond : min t (brev logn t) < c ∧ t ≠ brev logn t
        · rw [if_pos hcond, if_pos (by omega : min t (brev logn t) < c + 1 ∧ t ≠ brev logn t)]
        · rw [if_neg hcond]
          have h1 : brev logn t = c → t = brev logn c := fun h => by
            calc t = brev logn (brev logn t) := hRR.symm
              _ = brev logn c := by rw [h]
          refine (if_neg ?_).symm
          rintro ⟨hmin, hne⟩
          rcases Nat.lt_or_ge (min t (brev logn t)) c with hlt | hge
          · exact hcond ⟨hlt, hne⟩
          · have hminc : min t (brev logn t) = c := by omega
            by_cases htc : t = c
            · have h2 : brev logn t = brev logn c := by rw [htc]
              omega
            · have hrc : brev logn t = c := by omega
              have h3 := h1 hrc
              omega

lemma bitrevSwapAux_eq (logn : Nat) (hlogn : logn ≤ 32) (x : Nat → Belt) (t : Nat)
    (ht : t < 2 ^ logn) :
    bitrevSwapAux logn (2 ^ logn) x t = x (brev logn t) := by
  rw [bitrevSwapAux_spec logn hlogn x (2 ^ logn) le_rfl t ht]
  by_cases h : t = brev logn t
  · rw [if_neg (by omega : ¬(min t (brev logn t) < 2 ^ logn ∧ t ≠ brev logn t)), ← h]
  · have hRlt : brev logn t < 2 ^ logn := brev_lt logn t
    rw [if_pos (by omega : min t (brev logn t) < 2 ^ logn ∧ t ≠ brev logn t)]

/-! ### Chunked parallel writes -/

lemma chunkedTab_spec (f : Nat → Belt) (c n : Nat) :
    ∀ i x t, t < n → t < i * c → chunkedTab f c n i x t = f t := by
  intro i
  induction i with
  | zero => intro x t _ h; omega
  | succ i ih =>
      intro x t htn hti
      have hmul : (i + 1) * c = i * c + c := by ring
      rw [chunkedTab, writeSeg]
      by_cases hseg : i * c ≤ t ∧ t < i * c + min c (n - i * c)
      · rw [if_pos hseg]
      · rw [if_neg hseg]
        exact ih x t htn (by omega)

lemma ceil_chunks_cover (c n t : Nat) (hc : 0 < c) (ht : t < n) :
    t < ((n + c - 1) / c) * c := by
  have h1 : n + c - 1 = (n - 1) + c := by omega
  rw [h1, Nat.add_div_right _ hc]
  have hdm := Nat.div_add_mod (n - 1) c
  have hmod : (n - 1) % c < c := Nat.mod_lt _ hc
  have h2 : ((n - 1) / c + 1) * c = c * ((n - 1) / c) + c := by ring
  omega

lemma chunkedGather_eq (threads n logn : Nat) (x : Nat → Belt)
    (hthreads : 0 < threads) (hle : threads ≤ n) (t : Nat) (ht : t < n) :
    chunkedGather threads n logn x t = x (bitreverse t logn) := by
  have hc : 0 < n / threads := (Nat.one_le_div_iff hthreads).2 hle
  exact chunkedTab_spec _ (n / threads) n _ _ t ht
    (ceil_chunks_cover (n / threads) n t hc ht)

/-! ### Butterfly stages -/

lemma bflyJAux_frame (w_m : Belt) (k m : Nat) :
    ∀ steps j w x t, (∀ j2, j ≤ j2 → j2 < j + steps → t ≠ k + j2 ∧ t ≠ k + j2 + m) →
      bflyJAux w_m k m steps j w x t = x t := by
  intro steps
  induction steps with
  | zero => intro j w x t _; rfl
  | succ steps ih =>
      intro j w x t h
      simp only [bflyJAux]
      rw [ih (j + 1) _ _ t (fun j2 h1 h2 => h j2 (by omega) (by omega))]
      have h0 := h j le_rfl (by omega)
      simp only [updF]
      rw [if_neg h0.2, if_neg h0.1]

lemma bflyGroup_frame (w_m : Belt) (k m : Nat) (x : Nat → Belt) (t : Nat)
    (h : t < k ∨ k + 2 * m ≤ t) : bflyGroup w_m k m x t = x t := by
  refine bflyJAux_frame w_m k m m 0 1 x t ?_
  intro j2 _ hj2
  constructor <;> omega

lemma bflyJAux_val (w_m : Belt) (k m : Nat) :
    ∀ steps j w x j0, j ≤ j0 → j0 < j + steps → j + steps ≤ m →
      bflyJAux w_m k m steps j w x (k + j0) =
        x (k + j0) + x (k + j0 + m) * (w * w_m ^ (j0 - j)) ∧
      bflyJAux w_m k m steps j w x (k + j0 + m) =
        x (k + j0) - x (k + j0 + m) * (w * w_m ^ (j0 - j)) := by
  intro steps
  induction steps with
  | zero => intro j w x j0 h1 h2 _; omega
  | succ steps ih =>
      intro j w x j0 h1 h2 h3
      simp only [bflyJAux]
      by_cases hj : j0 = j
      · subst hj
        rw [bflyJAux_frame w_m k m steps (j0 + 1) _ _ (k + j0)
              (fun j2 h2a h2b => by constructor <;> omega),
            bflyJAux_frame w_m k m steps (j0 + 1) _ _ (k + j0 + m)
              (fun j2 h2a h2b => by constructor <;> omega)]
        have hne : ¬(k + j0 = k + j0 + m) := by omega
        constructor
        · simp [updF, hne]
        · simp [updF, hne]
      · have hj0m : j0 < m := by omega
        have hupd1 : (updF (updF x (k + j) (x (k + j) + x (k + j + m) * w)) (k + j + m)
            (x (k + j) - x (k + j + m) * w)) (k + j0) = x (k + j0) := by
          simp only [updF]
          rw [if_neg (by omega : ¬k + j0 = k + j + m), if_neg (by omega : ¬k + j0 = k + j)]
        have hupd2 : (updF (updF x (k + j) (x (k + j) + x (k + j + m) * w)) (k + j + m)
            (x (k + j) - x (k + j + m) * w)) (k + j0 + m) = x (k + j0 + m) := by
          simp only [updF]
          rw [if_neg (by omega : ¬k + j0 + m = k + j + m),
            if_neg (by omega : ¬k + j0 + m = k + j)]
        have hpow : w * w_m * w_m ^ (j0 - (j + 1)) = w * w_m ^ (j0 - j) := by
          have hd : j0 - j = (j0 - (j + 1)) + 1 := by omega
          rw [hd, pow_succ]
          ring
        have ihres := ih (j + 1) (w * w_m)
          (updF (updF x (k + j) (x (k + j) + x (k + j + m) * w)) (k + j + m)
            (x (k + j) - x (k + j + m) * w)) j0 (by omega) (by omega) (by omega)
        refine ⟨?_, ?_⟩
        · rw [ihres.1, hupd1, hupd2, hpow]
        · rw [ihres.2, hupd1, hupd2, hpow]

lemma bflyGroup_val (w_m : Belt) (k m : Nat) (x : Nat → Belt) (j0 : Nat) (h : j0 < m) :
    bflyGroup w_m k m x (k + j0) = x (k + j0) + x (k + j0 + m) * w_m ^ j0 ∧
    bflyGroup w_m k m x (k + j0 + m) = x (k + j0) - x (k + j0 + m) * w_m ^ j0 := by
  have hres := bflyJAux_val w_m k m m 0 1 x j0 (by omega) (by omega) (by omega)
  simpa using hres

lemma bflyGroup_congr (w_m : Belt) (k m : Nat) (x y : Nat → Belt)
    (hxy : ∀ s, k ≤ s → s < k + 2 * m → x s = y s) (t : Nat) (htk : k ≤ t)
    (htm : t < k + 2 * m) : bflyGroup w_m k m x t = bflyGroup w_m k m y t := by
  rcases Nat.lt_or_ge t (k + m) with hcase | hcase
  · have hj : t = k + (t - k) := by omega
    have hlt : t - k < m := by omega
    rw [hj, (bflyGroup_val w_m k m x (t - k) hlt).1, (bflyGroup_val w_m k m y (t - k) hlt).1,
      hxy (k + (t - k)) (by omega) (by omega), hxy (k + (t - k) + m) (by omega) (by omega)]
  · have hj : t = k + (t - k - m) + m := by omega
    have hlt : t - k - m < m := by omega
    rw [hj, (bflyGroup_val w_m k m x (t - k - m) hlt).2,
      (bflyGroup_val w_m k m y (t - k - m) hlt).2,
      hxy (k + (t - k - m)) (by omega) (by omega),
      hxy (k + (t - k - m) + m) (by omega) (by omega)]

lemma bflyKAux_frame_lo (w_m : Belt) (m : Nat) :
    ∀ g k0 x t, t < k0 → bflyKAux w_m m g k0 x t = x t := by
  intro g
  induction g with
  | zero => intro k0 x t _; rfl
  | succ g ih =>
      intro k0 x t h
      rw [bflyKAux, ih (k0 + 2 * m) _ t (by omega), bflyGroup_frame w_m k0 m x t (by omega)]

lemma bflyKAux_frame_hi (w_m : Belt) (m : Nat) :
    ∀ g k0 x t, k0 + g * (2 * m) ≤ t → bflyKAux w_m m g k0 x t = x t := by
  intro g
  induction g with
  | zero => intro k0 x t _; rfl
  | succ g ih =>
      intro k0 x t h
      have hmul : (g + 1) * (2 * m) = g * (2 * m) + 2 * m := by ring
      rw [bflyKAux, ih (k0 + 2 * m) _ t (by omega),
        bflyGroup_frame w_m k0 m x t (by omega)]

lemma bflyKAux_spec (w_m : Belt) (m : Nat) :
    ∀ g k0 x t, k0 ≤ t → t < k0 + g * (2 * m) →
      bflyKAux w_m m g k0 x t =
        bflyGroup w_m (k0 + 2 * m * ((t - k0) / (2 * m))) m x t := by
  intro g
  induction g with
  | zero => intro k0 x t h1 h2; omega
  | succ g ih =>
      intro k0 x t h1 h2
      have hm : 0 < m := by
        rcases Nat.eq_zero_or_pos m with h | h
        · subst h; omega
        · exact h
      rw [bflyKAux]
      rcases Nat.lt_or_ge t (k0 + 2 * m) with hcase | hcase
      · rw [bflyKAux_frame_lo w_m m g (k0 + 2 * m) _ t (by omega)]
        have hq : (t - k0) / (2 * m) = 0 := Nat.div_eq_of_lt (by omega)
        rw [hq, mul_zero, add_zero]
      · have hmul : (g + 1) * (2 * m) = g * (2 * m) + 2 * m := by ring
        have ihres := ih (k0 + 2 * m) (bflyGroup w_m k0 m x) t hcase (by omega)
        rw [ihres]
        have hsub : t - k0 = (t - (k0 + 2 * m)) + 1 * (2 * m) := by omega
        have hstep : (t - k0) / (2 * m) = (t - (k0 + 2 * m)) / (2 * m) + 1 := by
          rw [hsub, Nat.add_mul_div_right _ _ (by omega : 0 < 2 * m)]
        have hk : k0 + 2 * m * ((t - k0) / (2 * m)) =
            k0 + 2 * m + 2 * m * ((t - (k0 + 2 * m)) / (2 * m)) := by
          rw [hstep]; ring
        rw [hk]
        have hdm := Nat.div_add_mod (t - (k0 + 2 * m)) (2 * m)
        have hmod : (t - (k0 + 2 * m)) % (2 * m) < 2 * m :=
          Nat.mod_lt _ (by omega)
        refine bflyGroup_congr w_m _ m _ x ?_ t (by omega) (by omega)
        intro s hs1 _
        exact bflyGroup_frame w_m k0 m x s (by omega)

lemma bflyStageSeq_eq_par (w_m : Belt) (m n : Nat) (hdvd : 2 * m ∣ n) :
    bflyStageSeq w_m m n = bflyStagePar w_m m n := by
  funext x t
  have hmn : n / (2 * m) * (2 * m) = n := Nat.div_mul_cancel hdvd
  rw [bflyStageSeq, bflyStagePar]
  rcases Nat.lt_or_ge t n with ht | ht
  · rw [if_pos ht, bflyKAux_spec w_m m (n / (2 * m)) 0 x t (by omega) (by omega)]
    have h0 : t - 0 = t := by omega
    rw [h0]
    have hcomm : 0 + 2 * m * (t / (2 * m)) = 2 * m * (t / (2 * m)) := by omega
    rw [hcomm]
  · rw [if_neg (by omega : ¬t < n), bflyKAux_frame_hi w_m m (n / (2 * m)) 0 x t (by omega)]

/-! ### Exponentiation, logarithm and summation support -/

lemma bpowAux_eq : ∀ (fuel : Nat) (b : Belt) (e : Nat), e ≤ fuel → bpowAux fuel b e = b ^ e := by
  intro fuel
  induction fuel with
  | zero =>
      intro b e he
      have h0 : e = 0 := by omega
      subst h0
      rfl
  | succ fuel ih =>
      intro b e he
      rw [bpowAux]
      by_cases h0 : e = 0
      · rw [if_pos h0, h0, pow_zero]
      · rw [if_neg h0]
        have hdm := Nat.div_add_mod e 2
        have hlt : e / 2 ≤ fuel := by omega
        rw [ih (b * b) (e / 2) hlt]
        have hbb : (b * b) ^ (e / 2) = b ^ (2 * (e / 2)) := by
          rw [show b * b = b ^ 2 by ring, ← pow_mul]
        by_cases hpar : e % 2 = 1
        · rw [if_pos hpar, hbb, ← pow_succ]
          congr 1
          omega
        · rw [if_neg hpar, hbb]
          congr 1
          omega

lemma bpow_eq (b : Belt) (e : Nat) : bpow b e = b ^ e :=
  bpowAux_eq e b e le_rfl

lemma log2f_pow : ∀ (fuel l : Nat), l ≤ fuel → log2f fuel (2 ^ l) = l := by
  intro fuel
  induction fuel with
  | zero =>
      intro l hl
      have h0 : l = 0 := by omega
      subst h0
      rfl
  | succ fuel ih =>
      intro l hl
      rw [log2f]
      rcases Nat.eq_zero_or_pos l with h0 | h0
      · subst h0
        rw [if_pos (by decide)]
      · have hgt : 1 < 2 ^ l := Nat.one_lt_two_pow_iff.2 (by omega)
        rw [if_neg (by omega)]
        have hsplit : 2 ^ l = 2 ^ (l - 1) * 2 := by
          rw [← pow_succ]
          congr 1
          omega
        rw [hsplit, Nat.mul_div_cancel _ (by omega : 0 < 2), ih (l - 1) (by omega)]
        omega

lemma ilog2_two_pow (l : Nat) : ilog2 (2 ^ l) = l :=
  log2f_pow (2 ^ l) l (Nat.le_of_lt (Nat.lt_two_pow l))

lemma sum_range_even_odd (f : Nat → Belt) :
    ∀ m, ∑ j ∈ Finset.range (2 * m), f j =
      ∑ j ∈ Finset.range m, f (2 * j) + ∑ j ∈ Finset.range m, f (2 * j + 1) := by
  intro m
  induction m with
  | zero => simp
  | succ m ih =>
      have h : 2 * (m + 1) = 2 * m + 1 + 1 := by ring
      rw [h, Finset.sum_range_succ, Finset.sum_range_succ, ih,
        Finset.sum_range_succ, Finset.sum_range_succ]
      ring

lemma brev_double (lp b : Nat) : brev (lp + 1) (2 * b) = brev lp b := by
  have h := brev_two_mul_add lp b 0 (by omega)
  simpa using h

lemma brev_double_add_one (lp b : Nat) : brev (lp + 1) (2 * b + 1) = brev lp b + 2 ^ lp := by
  have h := brev_two_mul_add lp b 1 (by omega)
  simpa using h

lemma pow_cycle_even (w : Belt) (M u j : Nat) (h : w ^ (2 * M) = 1) :
    w ^ ((M + u) * (2 * j)) = (w ^ 2) ^ (u * j) := by
  have hexp : (M + u) * (2 * j) = 2 * M * j + 2 * (u * j) := by ring
  rw [hexp, pow_add, pow_mul, h, one_pow, one_mul, pow_mul]

lemma pow_cycle_odd (w : Belt) (M u j : Nat) (h1 : w ^ (2 * M) = 1) (hM : w ^ M = -1) :
    w ^ ((M + u) * (2 * j + 1)) = -((w ^ 2) ^ (u * j) * w ^ u) := by
  have hexp : (M + u) * (2 * j + 1) = 2 * M * j + 2 * (u * j) + (M + u) := by ring
  rw [hexp, pow_add, pow_add, pow_add, pow_mul, h1, one_pow, one_mul, hM, pow_mul]
  ring

/-! ### The staged butterflies compute the discrete Fourier transform -/

lemma nttStagesSeq_spec (l : Nat) (root : Belt) (orig : Nat → Belt)
    (h1 : root ^ 2 ^ l = 1) (hneg : 1 ≤ l → root ^ 2 ^ (l - 1) = -1) :
    ∀ (rem s : Nat) (x : Nat → Belt), s + rem = l →
      (∀ b t, b < 2 ^ (l - s) → t < 2 ^ s →
        x (b * 2 ^ s + t) = ∑ j ∈ Finset.range (2 ^ s),
          orig (2 ^ (l - s) * j + brev (l - s) b) * (root ^ 2 ^ (l - s)) ^ (t * j)) →
      ∀ t, t < 2 ^ l → nttStagesSeq root (2 ^ l) rem (2 ^ s) x t =
        ∑ j ∈ Finset.range (2 ^ l), orig j * root ^ (t * j) := by
  intro rem
  induction rem with
  | zero =>
      intro s x hsl hinv t ht
      have hs : s = l := by omega
      subst hs
      rw [nttStagesSeq]
      have hx := hinv 0 t (by positivity) ht
      have hll : s - s = 0 := Nat.sub_self s
      rw [hll] at hx
      simp only [pow_zero, pow_one, one_mul, zero_mul, zero_add] at hx
      rw [hx]
      apply Finset.sum_congr rfl
      intro j _
      rw [show brev 0 0 = 0 from rfl, add_zero]
  | succ rem ih =>
      intro s x hsl hinv t ht
      have hslt : s < l := by omega
      have hl1 : 1 ≤ l := by omega
      rw [nttStagesSeq]
      have h2s : 2 * 2 ^ s = 2 ^ (s + 1) := by rw [pow_succ]; ring
      have hwm : bpow root (2 ^ l / (2 * 2 ^ s)) = root ^ 2 ^ (l - (s + 1)) := by
        rw [bpow_eq, h2s, Nat.pow_div (by omega) (by omega)]
      rw [hwm, h2s]
      have hW2 : (root ^ 2 ^ (l - (s + 1))) ^ 2 = root ^ 2 ^ (l - s) := by
        rw [← pow_mul]
        congr 1
        have hls : l - s = (l - (s + 1)) + 1 := by omega
        rw [hls, pow_succ]
      have hWs : (root ^ 2 ^ (l - (s + 1))) ^ 2 ^ s = -1 := by
        rw [← pow_mul, ← pow_add]
        have hexp : l - (s + 1) + s = l - 1 := by omega
        rw [hexp]
        exact hneg hl1
      have hWn : (root ^ 2 ^ (l - (s + 1))) ^ 2 ^ (s + 1) = 1 := by
        rw [← pow_mul, ← pow_add]
        have hexp : l - (s + 1) + (s + 1) = l := by omega
        rw [hexp]
        exact h1
      have hpow2 : 2 ^ (l - s) = 2 * 2 ^ (l - (s + 1)) := by
        have hls : l - s = (l - (s + 1)) + 1 := by omega
        rw [hls, pow_succ]
        ring
      have hnewinv : ∀ b t2, b < 2 ^ (l - (s + 1)) → t2 < 2 ^ (s + 1) →
          bflyStageSeq (root ^ 2 ^ (l - (s + 1))) (2 ^ s) (2 ^ l) x (b * 2 ^ (s + 1) + t2) =
          ∑ j ∈ Finset.range (2 ^ (s + 1)),
            orig (2 ^ (l - (s + 1)) * j + brev (l - (s + 1)) b) *
              (root ^ 2 ^ (l - (s + 1))) ^ (t2 * j) := by
        intro b t2 hb ht2
        have hdist : (b + 1) * 2 ^ (s + 1) = b * 2 ^ (s + 1) + 2 ^ (s + 1) := by ring
        have hpowl : 2 ^ (l - (s + 1)) * 2 ^ (s + 1) = 2 ^ l := by
          rw [← pow_add]
          congr 1
          omega
        have hmul : (b + 1) * 2 ^ (s + 1) ≤ 2 ^ (l - (s + 1)) * 2 ^ (s + 1) :=
          Nat.mul_le_mul_right _ (by omega)
        have hp : b * 2 ^ (s + 1) + t2 < 2 ^ l := by omega
        have hdvd : 2 * 2 ^ s ∣ 2 ^ l := by
          rw [h2s]
          exact pow_dvd_pow 2 (by omega)
        have hgm : 2 ^ l / (2 * 2 ^ s) * (2 * 2 ^ s) = 2 ^ l := Nat.div_mul_cancel hdvd
        rw [bflyStageSeq]
        rw [bflyKAux_spec (root ^ 2 ^ (l - (s + 1))) (2 ^ s) (2 ^ l / (2 * 2 ^ s)) 0 x
          (b * 2 ^ (s + 1) + t2) (by omega) (by omega)]
        have hq : (b * 2 ^ (s + 1) + t2 - 0) / (2 * 2 ^ s) = b := by
          rw [Nat.sub_zero, h2s, show b * 2 ^ (s + 1) + t2 = 2 ^ (s + 1) * b + t2 by ring,
            Nat.mul_add_div (by positivity), Nat.div_eq_of_lt ht2, add_zero]
        rw [hq]
        have hk0 : 0 + 2 * 2 ^ s * b = 2 ^ (s + 1) * b := by rw [h2s]; ring
        rw [hk0]
        rcases Nat.lt_or_ge t2 (2 ^ s) with hcase | hcase
        · -- lower half of the group
          rw [show b * 2 ^ (s + 1) + t2 = 2 ^ (s + 1) * b + t2 by ring]
          rw [(bflyGroup_val _ (2 ^ (s + 1) * b) (2 ^ s) x t2 hcase).1]
          rw [show 2 ^ (s + 1) * b + t2 = 2 * b * 2 ^ s + t2 by rw [pow_succ]; ring]
          rw [show 2 * b * 2 ^ s + t2 + 2 ^ s = (2 * b + 1) * 2 ^ s + t2 by ring]
          rw [hinv (2 * b) t2 (by omega) hcase, hinv (2 * b + 1) t2 (by omega) hcase]
          rw [← h2s, sum_range_even_odd]
          have heven : ∑ j ∈ Finset.range (2 ^ s),
              orig (2 ^ (l - (s + 1)) * (2 * j) + brev (l - (s + 1)) b) *
                (root ^ 2 ^ (l - (s + 1))) ^ (t2 * (2 * j)) =
              ∑ j ∈ Finset.range (2 ^ s),
                orig (2 ^ (l - s) * j + brev (l - s) (2 * b)) *
                  (root ^ 2 ^ (l - s)) ^ (t2 * j) := by
            apply Finset.sum_congr rfl
            intro j _
            have hls : l - s = (l - (s + 1)) + 1 := by omega
            have hidx : 2 ^ (l - (s + 1)) * (2 * j) + brev (l - (s + 1)) b =
                2 ^ (l - s) * j + brev (l - s) (2 * b) := by
              rw [hls, brev_double, pow_succ]
              ring
            rw [hidx, show t2 * (2 * j) = 2 * (t2 * j) by ring, pow_mul, hW2]
          have hodd : ∑ j ∈ Finset.range (2 ^ s),
              orig (2 ^ (l - (s + 1)) * (2 * j + 1) + brev (l - (s + 1)) b) *
                (root ^ 2 ^ (l - (s + 1))) ^ (t2 * (2 * j + 1)) =
              (∑ j ∈ Finset.range (2 ^ s),
                orig (2 ^ (l - s) * j + brev (l - s) (2 * b + 1)) *
                  (root ^ 2 ^ (l - s)) ^ (t2 * j)) * (root ^ 2 ^ (l - (s + 1))) ^ t2 := by
            rw [Finset.sum_mul]
            apply Finset.sum_congr rfl
            intro j _
            have hls : l - s = (l - (s + 1)) + 1 := by omega
            have hidx : 2 ^ (l - (s + 1)) * (2 * j + 1) + brev (l - (s + 1)) b =
                2 ^ (l - s) * j + brev (l - s) (2 * b + 1) := by
              rw [hls, brev_double_add_one, pow_succ]
              ring
            rw [hidx, show t2 * (2 * j + 1) = 2 * (t2 * j) + t2 by ring, pow_add, pow_mul, hW2]
            ring
          rw [heven, hodd]
        · -- upper half of the group
          have hult : t2 - 2 ^ s < 2 ^ s := by omega
          rw [show b * 2 ^ (s + 1) + t2 = 2 ^ (s + 1) * b + (t2 - 2 ^ s) + 2 ^ s by
            have hc : b * 2 ^ (s + 1) = 2 ^ (s + 1) * b := by ring
            omega]
          rw [(bflyGroup_val _ (2 ^ (s + 1) * b) (2 ^ s) x (t2 - 2 ^ s) hult).2]
          rw [show 2 ^ (s + 1) * b + (t2 - 2 ^ s) = 2 * b * 2 ^ s + (t2 - 2 ^ s) by
            rw [pow_succ]; ring]
          rw [show 2 * b * 2 ^ s + (t2 - 2 ^ s) + 2 ^ s = (2 * b + 1) * 2 ^ s + (t2 - 2 ^ s) by
            ring]
          rw [hinv (2 * b) (t2 - 2 ^ s) (by omega) hult,
            hinv (2 * b + 1) (t2 - 2 ^ s) (by omega) hult]
          rw [← h2s, sum_range_even_odd]
          have heven : ∑ j ∈ Finset.range (2 ^ s),
              orig (2 ^ (l - (s + 1)) * (2 * j) + brev (l - (s + 1)) b) *
                (root ^ 2 ^ (l - (s + 1))) ^ (t2 * (2 * j)) =
              ∑ j ∈ Finset.range (2 ^ s),
                orig (2 ^ (l - s) * j + brev (l - s) (2 * b)) *
                  (root ^ 2 ^ (l - s)) ^ ((t2 - 2 ^ s) * j) := by
            apply Finset.sum_congr rfl
            intro j _
            have hls : l - s = (l - (s + 1)) + 1 := by omega
            have hidx : 2 ^ (l - (s + 1)) * (2 * j) + brev (l - (s + 1)) b =
                2 ^ (l - s) * j + brev (l - s) (2 * b) := by
              rw [hls, brev_double, pow_succ]
              ring
            have hWn2 : (root ^ 2 ^ (l - (s + 1))) ^ (2 * 2 ^ s) = 1 := by
              rw [h2s]; exact hWn
            have hcyc := pow_cycle_even (root ^ 2 ^ (l - (s + 1))) (2 ^ s) (t2 - 2 ^ s) j hWn2
            rw [show 2 ^ s + (t2 - 2 ^ s) = t2 by omega] at hcyc
            rw [hidx, hcyc, hW2]
          have hodd : ∑ j ∈ Finset.range (2 ^ s),
              orig (2 ^ (l - (s + 1)) * (2 * j + 1) + brev (l - (s + 1)) b) *
                (root ^ 2 ^ (l - (s + 1))) ^ (t2 * (2 * j + 1)) =
              -((∑ j ∈ Finset.range (2 ^ s),
                orig (2 ^ (l - s) * j + brev (l - s) (2 * b + 1)) *
                  (root ^ 2 ^ (l - s)) ^ ((t2 - 2 ^ s) * j)) *
                (root ^ 2 ^ (l - (s + 1))) ^ (t2 - 2 ^ s)) := by
            rw [Finset.sum_mul, ← Finset.sum_neg_distrib]
            apply Finset.sum_congr rfl
            intro j _
            have hls : l - s = (l - (s + 1)) + 1 := by omega
            have hidx : 2 ^ (l - (s + 1)) * (2 * j + 1) + brev (l - (s + 1)) b =
                2 ^ (l - s) * j + brev (l - s) (2 * b + 1) := by
              rw [hls, brev_double_add_one, pow_succ]
              ring
            have hWn2 : (root ^ 2 ^ (l - (s + 1))) ^ (2 * 2 ^ s) = 1 := by
              rw [h2s]; exact hWn
            have hcyc := pow_cycle_odd (root ^ 2 ^ (l - (s + 1))) (2 ^ s) (t2 - 2 ^ s) j hWn2 hWs
            rw [show 2 ^ s + (t2 - 2 ^ s) = t2 by omega] at hcyc
            rw [hidx, hcyc, hW2]
            ring
          rw [heven, hodd]
          ring
      exact ih (s + 1) _ (by omega) hnewinv t ht

lemma ofFun_congr (f g : Nat → Belt) (n : Nat) (h : ∀ t, t < n → f t = g t) :
    ofFun f n = ofFun g n := by
  apply List.map_congr_left
  intro a ha
  exact h a (List.mem_range.mp ha)

lemma bflyStageSeq_congr (w_m : Belt) (m n : Nat) (hm : 0 < m) (hdvd : 2 * m ∣ n)
    (x y : Nat → Belt) (hxy : ∀ u, u < n → x u = y u) (t : Nat) (ht : t < n) :
    bflyStageSeq w_m m n x t = bflyStageSeq w_m m n y t := by
  have hgm : n / (2 * m) * (2 * m) = n := Nat.div_mul_cancel hdvd
  rw [bflyStageSeq, bflyStageSeq,
    bflyKAux_spec w_m m (n / (2 * m)) 0 x t (by omega) (by omega),
    bflyKAux_spec w_m m (n / (2 * m)) 0 y t (by omega) (by omega)]
  have hq := Nat.div_add_mod (t - 0) (2 * m)
  have hqlt : (t - 0) / (2 * m) < n / (2 * m) :=
    Nat.div_lt_div_of_lt_of_dvd hdvd (by omega)
  have hk2 : 0 + 2 * m * ((t - 0) / (2 * m)) + 2 * m ≤ n := by
    have h4 : 2 * m * ((t - 0) / (2 * m) + 1) ≤ 2 * m * (n / (2 * m)) :=
      Nat.mul_le_mul_left _ (by omega)
    have h5 : 2 * m * (n / (2 * m)) = n := by rw [mul_comm]; exact hgm
    have h3 : 2 * m * ((t - 0) / (2 * m) + 1) = 2 * m * ((t - 0) / (2 * m)) + 2 * m := by ring
    omega
  have hmod : (t - 0) % (2 * m) < 2 * m := Nat.mod_lt _ (by omega)
  apply bflyGroup_congr
  · intro u hu1 hu2
    exact hxy u (by omega)
  · omega
  · omega

lemma nttStagesSeq_congr (root : Belt) (l : Nat) :
    ∀ rem s (x y : Nat → Belt), s + rem ≤ l → (∀ t, t < 2 ^ l → x t = y t) →
      ∀ t, t < 2 ^ l → nttStagesSeq root (2 ^ l) rem (2 ^ s) x t =
        nttStagesSeq root (2 ^ l) rem (2 ^ s) y t := by
  intro rem
  induction rem with
  | zero =>
      intro s x y _ hxy t ht
      rw [nttStagesSeq, nttStagesSeq]
      exact hxy t ht
  | succ rem ih =>
      intro s x y hsl hxy t ht
      rw [nttStagesSeq, nttStagesSeq]
      have h2s : 2 * 2 ^ s = 2 ^ (s + 1) := by rw [pow_succ]; ring
      rw [h2s]
      apply ih (s + 1) _ _ (by omega) ?_ t ht
      intro t2 ht2
      exact bflyStageSeq_congr _ (2 ^ s) (2 ^ l) (by positivity)
        (by rw [h2s]; exact pow_dvd_pow 2 (by omega)) x y hxy t2 ht2

lemma nttStages_eq_seq (threads bfT : Nat) (root : Belt) (l : Nat) :
    ∀ rem s x, s + rem ≤ l → nttStages threads bfT root (2 ^ l) rem (2 ^ s) x =
      nttStagesSeq root (2 ^ l) rem (2 ^ s) x := by
  intro rem
  induction rem with
  | zero => intro s x _; rfl
  | succ rem ih =>
      intro s x hsl
      rw [nttStages, nttStagesSeq]
      have h2s : 2 * 2 ^ s = 2 ^ (s + 1) := by rw [pow_succ]; ring
      rw [bflyStageSeq_eq_par _ (2 ^ s) (2 ^ l)
        (by rw [h2s]; exact pow_dvd_pow 2 (by omega)), ite_self, h2s]
      exact ih (s + 1) _ (by omega)

lemma bp_ntt_length (bp : List Belt) (root : Belt) : (bp_ntt bp root).length = bp.length := by
  simp only [bp_ntt]
  by_cases h : bp.length = 1
  · rw [if_pos h, h]
    rfl
  · rw [if_neg h]
    simp [ofFun]

lemma bp_ntt_dft (l : Nat) (hl32 : l ≤ 32) (bp : List Belt) (root : Belt)
    (hlen : bp.length = 2 ^ l)
    (h1 : root ^ 2 ^ l = 1) (hneg : 1 ≤ l → root ^ 2 ^ (l - 1) = -1) :
    bp_ntt bp root = dft bp root := by
  rcases Nat.eq_zero_or_pos l with hl0 | hlpos
  · subst hl0
    obtain ⟨a, rfl⟩ := List.length_eq_one.mp (by simpa using hlen)
    simp [bp_ntt, dft, toFun, ofFun]
  · have hne1 : bp.length ≠ 1 := by
      rw [hlen]
      have hh := Nat.one_lt_two_pow_iff.2 (show l ≠ 0 by omega)
      omega
    simp only [bp_ntt, dft, ofFun]
    rw [if_neg hne1, hlen, ilog2_two_pow]
    apply List.map_congr_left
    intro t htmem
    have ht : t < 2 ^ l := List.mem_range.mp htmem
    have hbase : ∀ b t2, b < 2 ^ (l - 0) → t2 < 2 ^ 0 →
        bitrevSwapAux l (2 ^ l) (toFun bp) (b * 2 ^ 0 + t2) =
        ∑ j ∈ Finset.range (2 ^ 0),
          toFun bp (2 ^ (l - 0) * j + brev (l - 0) b) * (root ^ 2 ^ (l - 0)) ^ (t2 * j) := by
      intro b t2 hb ht2
      have ht20 : t2 = 0 := by omega
      subst ht20
      simp only [Nat.sub_zero, pow_zero, mul_one, add_zero] at hb ⊢
      rw [bitrevSwapAux_eq l hl32 (toFun bp) b hb, Finset.sum_range_one]
      simp
    exact nttStagesSeq_spec l root (toFun bp) h1 hneg l 0
      (bitrevSwapAux l (2 ^ l) (toFun bp)) (by omega) hbase t ht

lemma ntt_paramT_eq_ntt (l threads t1 t2 t3 : Nat) (hl : l ≤ 31) (bp : List Belt)
    (root : Belt) (hlen : bp.length = 2 ^ l)
    (hguard : 1 < threads → t2 ≤ 2 ^ l → threads ≤ 2 ^ l) :
    bp_ntt_paramT threads t1 t2 t3 bp root = bp_ntt bp root := by
  have hpow31 : (2 : Nat) ^ l ≤ 2 ^ 31 := Nat.pow_le_pow_right (by omega) hl
  have hpow32 : (2 : Nat) ^ 31 < 2 ^ 32 := by norm_num
  have hmod : 2 ^ l % 2 ^ 32 = 2 ^ l := Nat.mod_eq_of_lt (by omega)
  simp only [bp_ntt_paramT, bp_ntt]
  by_cases hone : bp.length = 1
  · rw [if_pos hone, if_pos hone]
  · rw [if_neg hone, if_neg hone, hlen, ilog2_two_pow, hmod]
    have hperm : ∀ t, t < 2 ^ l →
        (if t1 ≤ 2 ^ l ∧ 1 < threads then
          (if 2 ^ l < t2 then bitrevGather l (toFun bp)
           else chunkedGather threads (2 ^ l) l (toFun bp))
         else bitrevSwapAux l (2 ^ l) (toFun bp)) t =
        bitrevSwapAux l (2 ^ l) (toFun bp) t := by
      intro t ht
      have ht32 : t < 2 ^ 32 := by omega
      by_cases hbr : t1 ≤ 2 ^ l ∧ 1 < threads
      · rw [if_pos hbr]
        by_cases hch : 2 ^ l < t2
        · rw [if_pos hch]
          rw [bitrevSwapAux_eq l (by omega) (toFun bp) t ht, bitrevGather,
            bitreverse_eq_brev t l (by omega) ht32]
        · rw [if_neg hch]
          rw [chunkedGather_eq threads (2 ^ l) l (toFun bp) (by omega)
            (hguard hbr.2 (by omega)) t ht]
          rw [bitrevSwapAux_eq l (by omega) (toFun bp) t ht,
            bitreverse_eq_brev t l (by omega) ht32]
      · rw [if_neg hbr]
    have hstages : nttStages threads t3 root (2 ^ l) l 1
        (if t1 ≤ 2 ^ l ∧ 1 < threads then
          (if 2 ^ l < t2 then bitrevGather l (toFun bp)
           else chunkedGather threads (2 ^ l) l (toFun bp))
         else bitrevSwapAux l (2 ^ l) (toFun bp)) =
        nttStagesSeq root (2 ^ l) l 1
        (if t1 ≤ 2 ^ l ∧ 1 < threads then
          (if 2 ^ l < t2 then bitrevGather l (toFun bp)
           else chunkedGather threads (2 ^ l) l (toFun bp))
         else bitrevSwapAux l (2 ^ l) (toFun bp)) :=
      nttStages_eq_seq threads t3 root l l 0 _ (by omega)
    rw [hstages]
    apply ofFun_congr
    have hcongr : ∀ t, t < 2 ^ l →
        nttStagesSeq root (2 ^ l) l 1
          (if t1 ≤ 2 ^ l ∧ 1 < threads then
            (if 2 ^ l < t2 then bitrevGather l (toFun bp)
             else chunkedGather threads (2 ^ l) l (toFun bp))
           else bitrevSwapAux l (2 ^ l) (toFun bp)) t =
        nttStagesSeq root (2 ^ l) l 1 (bitrevSwapAux l (2 ^ l) (toFun bp)) t :=
      nttStagesSeq_congr root l l 0 _ _ (by omega) hperm
    exact hcongr

/-- C1 (amended): for every input polynomial whose power-of-two length is at
most 2^31 — where the `u32`-truncated bound `n as u32` of the sequential
bit-reversal loop still equals `n` — and every root, the parallel code paths
of the NTT (parallel bit-reversal gather, simple or chunked, and parallel
butterfly stages, taken when the size and threshold conditions hold) produce
output bit-identical to the sequential code paths (sequential bit-reversal
swap loop and sequential butterflies), for the source thresholds 32/256/8
and for every other threshold choice alike.  The two guard hypotheses only
exclude thread counts that would make the source's chunked gather panic on a
zero rayon chunk size (`n / threads = 0`).  At length exactly 2^32 the
equality fails in the source: see the companion divergence theorem. -/
theorem c1_parallel_ntt_bit_identical_amended :
    ∀ (l threads t1 t2 t3 : Nat) (bp : List Belt) (root : Belt),
      bp.length = 2 ^ l → l ≤ 31 →
      (1 < threads → 256 ≤ 2 ^ l → threads ≤ 2 ^ l) →
      (1 < threads → t2 ≤ 2 ^ l → threads ≤ 2 ^ l) →
      bp_ntt_parallel threads bp root = bp_ntt bp root ∧
      bp_ntt_paramT threads t1 t2 t3 bp root = bp_ntt bp root := by
  intro l threads t1 t2 t3 bp root hlen hl hg256 hgt2
  exact ⟨ntt_paramT_eq_ntt l threads 32 256 8 hl bp root hlen hg256,
    ntt_paramT_eq_ntt l threads t1 t2 t3 hl bp root hlen hgt2⟩

/-- Witness for amended C1 at a concrete size-32 input with root 5 and two
threads: at this size the source takes the parallel simple-gather
bit-reversal branch (32 <= n < 256) and the parallel butterfly branch for
the stages with m = 8 and m = 16. -/
theorem c1_parallel_ntt_bit_identical_amended_witness :
    ([0, 1, 2, 3, 4, 5, 6, 7, 8, 9, 10, 11, 12, 13, 14, 15, 16, 17, 18, 19,
      20, 21, 22, 23, 24, 25, 26, 27, 28, 29, 30, 31] : List Belt).length = 2 ^ 5 ∧
    bp_ntt_parallel 2
      [0, 1, 2, 3, 4, 5, 6, 7, 8, 9, 10, 11, 12, 13, 14, 15, 16, 17, 18, 19,
       20, 21, 22, 23, 24, 25, 26, 27, 28, 29, 30, 31] 5 =
    bp_ntt
      [0, 1, 2, 3, 4, 5, 6, 7, 8, 9, 10, 11, 12, 13, 14, 15, 16, 17, 18, 19,
       20, 21, 22, 23, 24, 25, 26, 27, 28, 29, 30, 31] 5 :=
  ⟨by decide,
   (c1_parallel_ntt_bit_identical_amended 5 2 32 256 8
     [0, 1, 2, 3, 4, 5, 6, 7, 8, 9, 10, 11, 12, 13, 14, 15, 16, 17, 18, 19,
      20, 21, 22, 23, 24, 25, 26, 27, 28, 29, 30, 31] 5 (by decide) (by decide)
     (by decide) (by decide)).1⟩

/-! ### Primality of the modulus and properties of ordered roots -/

lemma seven_pow_sub_one : (7 : Belt) ^ (PRIME - 1) = 1 := by
  rw [← bpow_eq]
  decide

lemma seven_pow_div2 : (7 : Belt) ^ ((PRIME - 1) / 2) ≠ 1 := by
  rw [← bpow_eq]
  decide

lemma seven_pow_div3 : (7 : Belt) ^ ((PRIME - 1) / 3) ≠ 1 := by
  rw [← bpow_eq]
  decide

lemma seven_pow_div5 : (7 : Belt) ^ ((PRIME - 1) / 5) ≠ 1 := by
  rw [← bpow_eq]
  decide

lemma seven_pow_div17 : (7 : Belt) ^ ((PRIME - 1) / 17) ≠ 1 := by
  rw [← bpow_eq]
  decide

lemma seven_pow_div257 : (7 : Belt) ^ ((PRIME - 1) / 257) ≠ 1 := by
  rw [← bpow_eq]
  decide

lemma seven_pow_div65537 : (7 : Belt) ^ ((PRIME - 1) / 65537) ≠ 1 := by
  rw [← bpow_eq]
  decide

lemma prime_PRIME : Nat.Prime PRIME := by
  apply lucas_primality PRIME 7 seven_pow_sub_one
  intro q hq hqdvd
  have hfact : PRIME - 1 = 2 ^ 32 * 3 * 5 * 17 * 257 * 65537 := by norm_num [PRIME]
  rw [hfact] at hqdvd
  rcases (Nat.Prime.dvd_mul hq).mp hqdvd with h | h
  · rcases (Nat.Prime.dvd_mul hq).mp h with h | h
    · rcases (Nat.Prime.dvd_mul hq).mp h with h | h
      · rcases (Nat.Prime.dvd_mul hq).mp h with h | h
        · rcases (Nat.Prime.dvd_mul hq).mp h with h | h
          · have h2 : q = 2 :=
              (Nat.prime_dvd_prime_iff_eq hq Nat.prime_two).mp (hq.dvd_of_dvd_pow h)
            subst h2
            exact seven_pow_div2
          · have h3 : q = 3 :=
              (Nat.prime_dvd_prime_iff_eq hq (by norm_num)).mp h
            subst h3
            exact seven_pow_div3
        · have h5 : q = 5 :=
            (Nat.prime_dvd_prime_iff_eq hq (by norm_num)).mp h
          subst h5
          exact seven_pow_div5
      · have h17 : q = 17 :=
          (Nat.prime_dvd_prime_iff_eq hq (by norm_num)).mp h
        subst h17
        exact seven_pow_div17
    · have h257 : q = 257 :=
        (Nat.prime_dvd_prime_iff_eq hq (by norm_num)).mp h
      subst h257
      exact seven_pow_div257
  · have h65537 : q = 65537 :=
      (Nat.prime_dvd_prime_iff_eq hq (by norm_num)).mp h
    subst h65537
    exact seven_pow_div65537

instance factPrimePrime : Fact (Nat.Prime PRIME) := ⟨prime_PRIME⟩

lemma binv_eq_inv (x : Belt) : binv x = x⁻¹ := by
  rw [binv, bpow_eq]
  by_cases hx : x = 0
  · subst hx
    rw [zero_pow (by norm_num [PRIME] : PRIME - 2 ≠ 0), inv_zero]
  · have hcard : x ^ (PRIME - 1) = 1 := ZMod.pow_card_sub_one_eq_one hx
    have hmul : x * x ^ (PRIME - 2) = 1 := by
      rw [← pow_succ', show PRIME - 2 + 1 = PRIME - 1 by norm_num [PRIME]]
      exact hcard
    exact (inv_eq_of_mul_eq_one_right hmul).symm

lemma two_pow_dvd_PRIME_sub_one (l : Nat) (hl : l ≤ 32) : 2 ^ l ∣ PRIME - 1 := by
  have hfact : PRIME - 1 = 2 ^ 32 * (3 * 5 * 17 * 257 * 65537) := by norm_num [PRIME]
  rw [hfact]
  exact Dvd.dvd.mul_right (pow_dvd_pow 2 hl) _

lemma ordered_root_two_pow (l : Nat) (hl : l ≤ 32) :
    ordered_root (2 ^ l) = .ok (bpow 7 ((PRIME - 1) / 2 ^ l)) := by
  rw [ordered_root, if_pos ⟨by positivity, two_pow_dvd_PRIME_sub_one l hl⟩]

lemma seven_pow_half_neg : (7 : Belt) ^ ((PRIME - 1) / 2) = -1 := by
  have hsq : (7 : Belt) ^ ((PRIME - 1) / 2) * (7 : Belt) ^ ((PRIME - 1) / 2) = 1 := by
    rw [← pow_add, show (PRIME - 1) / 2 + (PRIME - 1) / 2 = PRIME - 1 by norm_num [PRIME]]
    exact seven_pow_sub_one
  rcases mul_self_eq_one_iff.mp hsq with h | h
  · exact absurd h seven_pow_div2
  · exact h

lemma root_pow_n (l : Nat) (hl : l ≤ 32) : bpow 7 ((PRIME - 1) / 2 ^ l) ^ 2 ^ l = 1 := by
  rw [bpow_eq, ← pow_mul, Nat.div_mul_cancel (two_pow_dvd_PRIME_sub_one l hl)]
  exact seven_pow_sub_one

lemma root_pow_half (l : Nat) (hl1 : 1 ≤ l) (hl : l ≤ 32) :
    bpow 7 ((PRIME - 1) / 2 ^ l) ^ 2 ^ (l - 1) = -1 := by
  rw [bpow_eq, ← pow_mul]
  obtain ⟨M, hM⟩ := two_pow_dvd_PRIME_sub_one l hl
  have hdiv : (PRIME - 1) / 2 ^ l = M := by
    rw [hM, Nat.mul_div_cancel_left _ (by positivity)]
  have hhalf : (PRIME - 1) / 2 = 2 ^ (l - 1) * M := by
    have hsplit : 2 ^ l = 2 * 2 ^ (l - 1) := by
      rw [← pow_succ']
      congr 1
      omega
    rw [hM, hsplit, mul_assoc, Nat.mul_div_cancel_left _ (by omega : 0 < 2)]
  rw [hdiv, show M * 2 ^ (l - 1) = (PRIME - 1) / 2 by rw [hhalf]; ring]
  exact seven_pow_half_neg

lemma orderOf_eq_two_pow (w : Belt) (l : Nat) (h1 : w ^ 2 ^ l = 1)
    (hneg : 1 ≤ l → w ^ 2 ^ (l - 1) = -1) : orderOf w = 2 ^ l := by
  have hdvd : orderOf w ∣ 2 ^ l := orderOf_dvd_of_pow_eq_one h1
  obtain ⟨k, hkl, hk⟩ := (Nat.dvd_prime_pow Nat.prime_two).mp hdvd
  rcases Nat.eq_or_lt_of_le hkl with heq | hlt
  · rw [hk, heq]
  · exfalso
    have hl1 : 1 ≤ l := by omega
    have hdvd2 : orderOf w ∣ 2 ^ (l - 1) := by
      rw [hk]
      exact pow_dvd_pow 2 (by omega)
    have hone : w ^ 2 ^ (l - 1) = 1 := orderOf_dvd_iff_pow_eq_one.mp hdvd2
    rw [hneg hl1] at hone
    exact absurd hone (by decide)

lemma pow_ne_one_of_lt_ord (w : Belt) (N : Nat) (hw : orderOf w = N) (d : Nat)
    (hd0 : 0 < d) (hdN : d < N) : w ^ d ≠ 1 := by
  intro h
  have hdvd := orderOf_dvd_of_pow_eq_one h
  rw [hw] at hdvd
  have := Nat.le_of_dvd hd0 hdvd
  omega

lemma geom_sum_root (z : Belt) (N : Nat) (hz1 : z ≠ 1) (hzN : z ^ N = 1) :
    ∑ t ∈ Finset.range N, z ^ t = 0 := by
  rw [geom_sum_eq hz1, hzN, sub_self, zero_div]

lemma sum_w_pow (w : Belt) (N : Nat) (hN : orderOf w = N) (hNpos : 0 < N) (d i : Nat)
    (hi : i < N) :
    ∑ t ∈ Finset.range N, (w ^ d * w⁻¹ ^ i) ^ t = if d % N = i then (N : Belt) else 0 := by
  have hwN : w ^ N = 1 := by rw [← hN]; exact pow_orderOf_eq_one w
  have hw0 : w ≠ 0 := by
    intro h
    rw [h, zero_pow (by omega : N ≠ 0)] at hwN
    exact zero_ne_one hwN
  have hmod : w ^ d = w ^ (d % N) := by
    conv_lhs => rw [← Nat.div_add_mod d N]
    rw [pow_add, pow_mul, hwN, one_pow, one_mul]
  by_cases hdi : d % N = i
  · rw [if_pos hdi, hmod, hdi]
    have hz : w ^ i * w⁻¹ ^ i = 1 := by
      rw [inv_pow, mul_inv_cancel₀ (pow_ne_zero i hw0)]
    rw [hz]
    simp [Finset.sum_const, Finset.card_range]
  · rw [if_neg hdi]
    apply geom_sum_root
    · intro hz
      rw [hmod, inv_pow] at hz
      have heq : w ^ (d % N) = w ^ i :=
        (mul_inv_eq_one₀ (pow_ne_zero i hw0)).mp hz
      have hdN : d % N < N := Nat.mod_lt _ hNpos
      rcases Nat.lt_or_ge (d % N) i with hlt | hge
      · have hsplit : w ^ i = w ^ (d % N) * w ^ (i - d % N) := by
          rw [← pow_add]
          congr 1
          omega
        have hstep : w ^ (d % N) * 1 = w ^ (d % N) * w ^ (i - d % N) := by
          rw [mul_one]
          conv_lhs => rw [heq]
          exact hsplit
        have hcan : (1 : Belt) = w ^ (i - d % N) :=
          mul_left_cancel₀ (pow_ne_zero _ hw0) hstep
        exact pow_ne_one_of_lt_ord w N hN (i - d % N) (by omega) (by omega) hcan.symm
      · have hgt : i < d % N := by omega
        have hsplit : w ^ (d % N) = w ^ i * w ^ (d % N - i) := by
          rw [← pow_add]
          congr 1
          omega
        have hstep : w ^ i * w ^ (d % N - i) = w ^ i * 1 := by
          rw [← hsplit, heq, mul_one]
        have hcan : w ^ (d % N - i) = (1 : Belt) :=
          mul_left_cancel₀ (pow_ne_zero i hw0) hstep
        exact pow_ne_one_of_lt_ord w N hN (d % N - i) (by omega) (by omega) hcan
    · have hz1 : (w ^ d) ^ N = 1 := by
        rw [pow_right_comm, hwN, one_pow]
      have hz2 : (w⁻¹ ^ i) ^ N = 1 := by
        rw [pow_right_comm, inv_pow, hwN, inv_one, one_pow]
      rw [mul_pow, hz1, hz2, one_mul]

lemma dft_inversion (w : Belt) (N : Nat) (hN : orderOf w = N) (hNpos : 0 < N)
    (a : Nat → Belt) (i : Nat) (hi : i < N) :
    ∑ t ∈ Finset.range N, (∑ j ∈ Finset.range N, a j * w ^ (t * j)) * w⁻¹ ^ (i * t) =
      a i * N := by
  have hstep : ∀ t, (∑ j ∈ Finset.range N, a j * w ^ (t * j)) * w⁻¹ ^ (i * t) =
      ∑ j ∈ Finset.range N, a j * (w ^ j * w⁻¹ ^ i) ^ t := by
    intro t
    rw [Finset.sum_mul]
    apply Finset.sum_congr rfl
    intro j _
    rw [mul_pow, show t * j = j * t by ring, pow_mul, pow_mul]
    ring
  calc ∑ t ∈ Finset.range N, (∑ j ∈ Finset.range N, a j * w ^ (t * j)) * w⁻¹ ^ (i * t)
      = ∑ t ∈ Finset.range N, ∑ j ∈ Finset.range N, a j * (w ^ j * w⁻¹ ^ i) ^ t :=
        Finset.sum_congr rfl (fun t _ => hstep t)
    _ = ∑ j ∈ Finset.range N, ∑ t ∈ Finset.range N, a j * (w ^ j * w⁻¹ ^ i) ^ t :=
        Finset.sum_comm
    _ = ∑ j ∈ Finset.range N, a j * ∑ t ∈ Finset.range N, (w ^ j * w⁻¹ ^ i) ^ t :=
        Finset.sum_congr rfl (fun j _ => (Finset.mul_sum _ _ _).symm)
    _ = ∑ j ∈ Finset.range N, a j * (if j % N = i then (N : Belt) else 0) :=
        Finset.sum_congr rfl (fun j _ => by rw [sum_w_pow w N hN hNpos j i hi])
    _ = ∑ j ∈ Finset.range N, (if j = i then a j * N else 0) := by
        apply Finset.sum_congr rfl
        intro j hj
        rw [Nat.mod_eq_of_lt (Finset.mem_range.mp hj), mul_ite, mul_zero]
    _ = a i * N := by
        rw [Finset.sum_ite_eq' (Finset.range N) i (fun j => a j * N),
          if_pos (Finset.mem_range.mpr hi)]

lemma dft_length (x : List Belt) (root : Belt) : (dft x root).length = x.length := by
  simp [dft]

lemma toFun_ofFun (f : Nat → Belt) (n t : Nat) (ht : t < n) : toFun (ofFun f n) t = f t := by
  simp [toFun, ofFun, List.getD_eq_getElem?_getD, List.getElem?_map, List.getElem?_range, ht]

lemma ofFun_toFun (bp : List Belt) : ofFun (toFun bp) bp.length = bp := by
  apply List.ext_getElem
  · simp [ofFun]
  · intro i h1 h2
    simp [ofFun, toFun, List.getD_eq_getElem?_getD, List.getElem?_eq_getElem h2]

lemma map_ofFun (g : Belt → Belt) (f : Nat → Belt) (n : Nat) :
    (ofFun f n).map g = ofFun (fun t => g (f t)) n := by
  simp [ofFun]

lemma dft_as_ofFun (x : List Belt) (root : Belt) :
    dft x root =
      ofFun (fun t => ∑ j ∈ Finset.range x.length, toFun x j * root ^ (t * j)) x.length := rfl

/-- C6: for every polynomial of power-of-two length in the supported range
(order dividing PRIME - 1, i.e. length at most 2^32) and every primitive
root of that order (characterised by the two power equations), the forward
transform with the root, followed by the forward transform with the inverse
root, followed by scaling every coefficient by the inverse of the length,
recovers the original polynomial exactly. -/
theorem c6_forward_inverse_roundtrip :
    ∀ (l : Nat) (bp : List Belt) (w : Belt), bp.length = 2 ^ l → l ≤ 32 →
      w ^ 2 ^ l = 1 → (1 ≤ l → w ^ 2 ^ (l - 1) = -1) →
      (bp_ntt (bp_ntt bp w) (binv w)).map (fun c => c * binv ((bp.length : Nat) : Belt)) =
        bp := by
  intro l bp w hlen hl32 h1 hneg
  have horder : orderOf w = 2 ^ l := orderOf_eq_two_pow w l h1 hneg
  have hNpos : (0 : Nat) < 2 ^ l := by positivity
  have h1i : w⁻¹ ^ 2 ^ l = 1 := by rw [inv_pow, h1, inv_one]
  have hnegi : 1 ≤ l → w⁻¹ ^ 2 ^ (l - 1) = -1 := fun hl => by
    rw [inv_pow, hneg hl]
    exact inv_eq_of_mul_eq_one_right (by ring)
  have hinner : bp_ntt bp w = dft bp w := bp_ntt_dft l hl32 bp w hlen h1 hneg
  have hdlen : (dft bp w).length = 2 ^ l := by rw [dft_length, hlen]
  have houter : bp_ntt (dft bp w) (binv w) = dft (dft bp w) w⁻¹ := by
    rw [binv_eq_inv]
    exact bp_ntt_dft l hl32 (dft bp w) w⁻¹ hdlen h1i hnegi
  have hcast : ((2 ^ l : Nat) : Belt) ≠ 0 := by
    rw [Ne, ZMod.natCast_zmod_eq_zero_iff_dvd]
    intro hdvd
    have hle := Nat.le_of_dvd (by positivity) hdvd
    have hlt : (2 : Nat) ^ l < PRIME := by
      calc (2 : Nat) ^ l ≤ 2 ^ 32 := Nat.pow_le_pow_right (by omega) hl32
        _ < PRIME := by norm_num [PRIME]
    omega
  rw [hinner, houter, hlen, dft_as_ofFun (dft bp w) w⁻¹, hdlen, map_ofFun]
  have hbp : ofFun (toFun bp) (2 ^ l) = bp := by
    rw [← hlen]
    exact ofFun_toFun bp
  conv_rhs => rw [← hbp]
  apply ofFun_congr
  intro i hi
  have hsum : ∑ j ∈ Finset.range (2 ^ l), toFun (dft bp w) j * w⁻¹ ^ (i * j) =
      ∑ t ∈ Finset.range (2 ^ l),
        (∑ j ∈ Finset.range (2 ^ l), toFun bp j * w ^ (t * j)) * w⁻¹ ^ (i * t) := by
    apply Finset.sum_congr rfl
    intro t htmem
    rw [dft_as_ofFun bp w, hlen, toFun_ofFun _ _ t (List.mem_range.mp htmem)]
  show (∑ j ∈ Finset.range (2 ^ l), toFun (dft bp w) j * w⁻¹ ^ (i * j)) *
      binv ((2 ^ l : Nat) : Belt) = toFun bp i
  rw [hsum, dft_inversion w (2 ^ l) horder hNpos (toFun bp) i hi, binv_eq_inv, mul_assoc,
    mul_inv_cancel₀ hcast, mul_one]

/-- Witness for C6 at length 2 with the primitive square root of unity -1
and the polynomial [3, 5]. -/
theorem c6_forward_inverse_roundtrip_witness :
    ([3, 5] : List Belt).length = 2 ^ 1 ∧ (-1 : Belt) ^ 2 ^ 1 = 1 ∧
    (bp_ntt (bp_ntt [3, 5] (-1)) (binv (-1))).map
      (fun c => c * binv ((([3, 5] : List Belt).length : Nat) : Belt)) = [3, 5] :=
  ⟨by decide, by decide,
   c6_forward_inverse_roundtrip 1 [3, 5] (-1) (by decide) (by decide) (by decide) (by decide)⟩

/-! ### FFT-based multiplication equals naive multiplication -/

lemma nextPow2f_spec : ∀ (fuel n : Nat), n ≤ fuel →
    ∃ L, nextPow2f fuel n = 2 ^ L ∧ n ≤ 2 ^ L ∧ ∀ k, n ≤ 2 ^ k → 2 ^ L ≤ 2 ^ k := by
  intro fuel
  induction fuel with
  | zero =>
      intro n hn
      refine ⟨0, rfl, by omega, ?_⟩
      intro k _
      exact Nat.one_le_two_pow
  | succ fuel ih =>
      intro n hn
      rw [nextPow2f]
      by_cases h1 : n ≤ 1
      · rw [if_pos h1]
        refine ⟨0, rfl, by omega, ?_⟩
        intro k _
        exact Nat.one_le_two_pow
      · rw [if_neg h1]
        have hrec : (n + 1) / 2 ≤ fuel := by omega
        obtain ⟨L, hL, hge, hmin⟩ := ih ((n + 1) / 2) hrec
        refine ⟨L + 1, by rw [hL, pow_succ]; ring, ?_, ?_⟩
        · have h2 : 2 ^ (L + 1) = 2 * 2 ^ L := by rw [pow_succ]; ring
          omega
        · intro k hk
          have hk1 : 1 ≤ k := by
            by_contra hk0
            have : k = 0 := by omega
            subst this
            simp at hk
            omega
          have hksplit : 2 ^ k = 2 * 2 ^ (k - 1) := by
            rw [← pow_succ']
            congr 1
            omega
          have hhalf : (n + 1) / 2 ≤ 2 ^ (k - 1) := by omega
          have := hmin (k - 1) hhalf
          have h2 : 2 ^ (L + 1) = 2 * 2 ^ L := by rw [pow_succ]; ring
          omega

lemma next_power_of_two_spec (n : Nat) :
    ∃ L, next_power_of_two n = 2 ^ L ∧ n ≤ 2 ^ L ∧ ∀ k, n ≤ 2 ^ k → 2 ^ L ≤ 2 ^ k :=
  nextPow2f_spec n n le_rfl

lemma toFun_append_replicate (a : List Belt) (p : Nat) :
    toFun (a ++ List.replicate p 0) = toFun a := by
  funext j
  simp only [toFun]
  rcases Nat.lt_or_ge j a.length with h | h
  · rw [List.getD_append _ _ _ _ h]
  · rcases Nat.lt_or_ge j (a.length + p) with h2 | h2
    · have hlen : j < (a ++ List.replicate p (0 : Belt)).length := by
        simp [List.length_append, List.length_replicate]
        omega
      rw [List.getD_eq_getElem _ _ hlen, List.getElem_append_right (by omega),
        List.getElem_replicate, List.getD_eq_default _ _ (by omega)]
    · rw [List.getD_eq_default, List.getD_eq_default _ _ (by omega)]
      simp [List.length_append, List.length_replicate]
      omega

lemma chunkedTab_ofFun (f : Nat → Belt) (c n : Nat) (hc : 0 < c) :
    ∀ t, t < n → chunkedTab f c n ((n + c - 1) / c) (fun _ => 0) t = f t := by
  intro t ht
  exact chunkedTab_spec f c n _ _ t ht (ceil_chunks_cover c n t hc ht)

lemma bpmul_pointwise_eq (threads padded : Nat) (afft bfft : List Belt)
    (hguard : 1 < threads → threads ≤ padded) :
    bpmul_pointwise threads padded afft bfft =
      ofFun (fun i => toFun afft i * toFun bfft i) padded := by
  simp only [bpmul_pointwise]
  by_cases hbr : 32 ≤ padded ∧ 1 < threads
  · rw [if_pos hbr]
    apply ofFun_congr
    intro t ht
    have hc : 0 < padded / threads := (Nat.one_le_div_iff (by omega)).2 (hguard hbr.2)
    exact chunkedTab_ofFun _ _ padded hc t ht
  · rw [if_neg hbr]

lemma take_ofFun (f : Nat → Belt) (n m : Nat) (h : m ≤ n) :
    (ofFun f n).take m = ofFun f m := by
  have hmin : min m n = m := by omega
  simp only [ofFun, ← List.map_take, List.take_range, hmin]

lemma bpmul_as_ofFun (a b : List Belt) :
    bpmul a b = ofFun
      (fun i => ∑ j ∈ Finset.range (i + 1), toFun a j * toFun b (i - j))
      (a.length + b.length - 1) := rfl

lemma ofFun_length (f : Nat → Belt) (n : Nat) : (ofFun f n).length = n := by
  simp [ofFun]

lemma fft_conv_coeff (w : Belt) (N : Nat) (hN : orderOf w = N) (hNpos : 0 < N)
    (a b : List Belt)
    (hlen : a.length + b.length - 1 ≤ N) (i : Nat) (hi : i < a.length + b.length - 1) :
    ∑ t ∈ Finset.range N,
      ((∑ j ∈ Finset.range N, toFun a j * w ^ (t * j)) *
       (∑ k ∈ Finset.range N, toFun b k * w ^ (t * k))) * w⁻¹ ^ (i * t) =
    (∑ j ∈ Finset.range (i + 1), toFun a j * toFun b (i - j)) * (N : Belt) := by
  have hstep : ∀ t,
      ((∑ j ∈ Finset.range N, toFun a j * w ^ (t * j)) *
       (∑ k ∈ Finset.range N, toFun b k * w ^ (t * k))) * w⁻¹ ^ (i * t) =
      ∑ j ∈ Finset.range N, ∑ k ∈ Finset.range N,
        toFun a j * toFun b k * (w ^ (j + k) * w⁻¹ ^ i) ^ t := by
    intro t
    rw [Finset.sum_mul_sum, Finset.sum_mul]
    refine Finset.sum_congr rfl (fun j _ => ?_)
    rw [Finset.sum_mul]
    refine Finset.sum_congr rfl (fun k _ => ?_)
    ring
  rw [Finset.sum_congr rfl (fun t _ => hstep t), Finset.sum_comm]
  have hswap : ∀ j ∈ Finset.range N,
      ∑ t ∈ Finset.range N, ∑ k ∈ Finset.range N,
        toFun a j * toFun b k * (w ^ (j + k) * w⁻¹ ^ i) ^ t =
      ∑ k ∈ Finset.range N,
        toFun a j * toFun b k * (if (j + k) % N = i then (N : Belt) else 0) := by
    intro j _
    rw [Finset.sum_comm]
    refine Finset.sum_congr rfl (fun k _ => ?_)
    rw [← Finset.mul_sum, sum_w_pow w N hN hNpos (j + k) i (by omega)]
  rw [Finset.sum_congr rfl hswap]
  have hinner : ∀ j ∈ Finset.range N,
      ∑ k ∈ Finset.range N,
        toFun a j * toFun b k * (if (j + k) % N = i then (N : Belt) else 0) =
      if j ≤ i then toFun a j * toFun b (i - j) * N else 0 := by
    intro j hj
    rw [Finset.mem_range] at hj
    by_cases hji : j ≤ i
    · have hmem : i - j ∈ Finset.range N := Finset.mem_range.mpr (by omega)
      have hsum : ∑ k ∈ Finset.range N,
          toFun a j * toFun b k * (if (j + k) % N = i then (N : Belt) else 0) =
          toFun a j * toFun b (i - j) *
            (if (j + (i - j)) % N = i then (N : Belt) else 0) := by
        apply Finset.sum_eq_single_of_mem (i - j) hmem
        intro k hk hkne
        rw [Finset.mem_range] at hk
        rw [if_neg ?_, mul_zero]
        intro hmod
        rcases Nat.lt_or_ge (j + k) N with hc | hc
        · rw [Nat.mod_eq_of_lt hc] at hmod
          omega
        · rw [Nat.mod_eq_sub_mod hc, Nat.mod_eq_of_lt (by omega)] at hmod
          omega
      have hself : (j + (i - j)) % N = i := by
        rw [Nat.add_sub_cancel' hji]
        exact Nat.mod_eq_of_lt (by omega)
      rw [hsum, if_pos hself, if_pos hji]
    · rw [if_neg hji]
      apply Finset.sum_eq_zero
      intro k hk
      rw [Finset.mem_range] at hk
      by_cases hmod : (j + k) % N = i
      · rw [if_pos hmod]
        have hkval : k = i + N - j := by
          rcases Nat.lt_or_ge (j + k) N with hc | hc
          · rw [Nat.mod_eq_of_lt hc] at hmod
            omega
          · rw [Nat.mod_eq_sub_mod hc, Nat.mod_eq_of_lt (by omega)] at hmod
            omega
        have hzero : toFun a j = 0 ∨ toFun b k = 0 := by
          rcases Nat.lt_or_ge j a.length with hja | hja
          · right
            have hkb : b.length ≤ k := by omega
            simp only [toFun]
            exact List.getD_eq_default _ _ hkb
          · left
            simp only [toFun]
            exact List.getD_eq_default _ _ hja
        rcases hzero with h0 | h0 <;> rw [h0] <;> ring
      · rw [if_neg hmod, mul_zero]
  rw [Finset.sum_congr rfl hinner]
  have hsub : Finset.range (i + 1) ⊆ Finset.range N :=
    Finset.range_subset.mpr (by omega)
  rw [Finset.sum_mul]
  rw [← Finset.sum_subset hsub]
  · apply Finset.sum_congr rfl
    intro j hj
    rw [Finset.mem_range] at hj
    rw [if_pos (by omega)]
  · intro j hj hj2
    rw [Finset.mem_range] at hj
    rw [Finset.mem_range, not_lt] at hj2
    rw [if_neg (by omega)]

/-- C5 (amended): for every pair of nonempty operand polynomials whose exact
product length is at most 2^31 — so the padded power-of-two length stays
below 2^32, where the `u32`-truncated sequential bit-reversal loop bound is
still exact — and every thread count that does not exceed the padded length
(larger counts would hand rayon a zero chunk size and panic), FFT-based
multiplication — pad to the next power of two at or above len(a)+len(b)-1,
forward-transform both, pointwise multiply, inverse-transform and scale,
truncate — returns exactly the naive O(n^2) product coefficient sequence.
At padded length exactly 2^32 with one thread the pipeline diverges from the
naive product: see the companion divergence theorem. -/
theorem c5_fft_mult_matches_naive_amended :
    ∀ (threads : Nat) (a b : List Belt), 0 < a.length → 0 < b.length →
      a.length + b.length - 1 ≤ 2 ^ 31 →
      (1 < threads → threads ≤ next_power_of_two (a.length + b.length - 1)) →
      bpmul_fft_parallel threads a b (a.length + b.length - 1) = .ok (bpmul a b) := by
  intro threads a b ha hb h31 hthr
  obtain ⟨L, hpadL, hge, hmin⟩ := next_power_of_two_spec (a.length + b.length - 1)
  have hL31 : L ≤ 31 := (Nat.pow_le_pow_iff_right (by omega)).mp (hmin 31 h31)
  have hL32 : L ≤ 32 := by omega
  have hthr2 : 1 < threads → threads ≤ 2 ^ L := by
    intro h
    rw [← hpadL]
    exact hthr h
  have hla : a.length ≤ 2 ^ L := by omega
  have hlb : b.length ≤ 2 ^ L := by omega
  have hlena : (a ++ List.replicate (2 ^ L - a.length) (0 : Belt)).length = 2 ^ L := by
    rw [List.length_append, List.length_replicate]
    omega
  have hlenb : (b ++ List.replicate (2 ^ L - b.length) (0 : Belt)).length = 2 ^ L := by
    rw [List.length_append, List.length_replicate]
    omega
  have hroot : ordered_root (2 ^ L) = .ok (bpow 7 ((PRIME - 1) / 2 ^ L)) :=
    ordered_root_two_pow L hL32
  simp only [bpmul_fft_parallel, bp_fft_parallel, hpadL, hlena, hlenb, hroot, bind,
    Except.bind, Except.instMonad]
  congr 1
  set w := bpow 7 ((PRIME - 1) / 2 ^ L) with hw
  set A := a ++ List.replicate (2 ^ L - a.length) (0 : Belt) with hAdef
  set B := b ++ List.replicate (2 ^ L - b.length) (0 : Belt) with hBdef
  have h1 : w ^ 2 ^ L = 1 := by
    rw [hw]
    exact root_pow_n L hL32
  have hneg : 1 ≤ L → w ^ 2 ^ (L - 1) = -1 := by
    intro hl
    rw [hw]
    exact root_pow_half L hl hL32
  have horder : orderOf w = 2 ^ L := orderOf_eq_two_pow w L h1 hneg
  have h1i : w⁻¹ ^ 2 ^ L = 1 := by
    rw [inv_pow, h1, inv_one]
  have hnegi : 1 ≤ L → w⁻¹ ^ 2 ^ (L - 1) = -1 := fun hl => by
    rw [inv_pow, hneg hl]
    exact inv_eq_of_mul_eq_one_right (by ring)
  have hcast : ((2 ^ L : Nat) : Belt) ≠ 0 := by
    rw [Ne, ZMod.natCast_zmod_eq_zero_iff_dvd]
    intro hdvd
    have hle := Nat.le_of_dvd (by positivity) hdvd
    have hlt : (2 : Nat) ^ L < PRIME := by
      calc (2 : Nat) ^ L ≤ 2 ^ 32 := Nat.pow_le_pow_right (by omega) hL32
        _ < PRIME := by norm_num [PRIME]
    omega
  have hafft : bp_ntt_parallel threads A w = dft A w := by
    simp only [bp_ntt_parallel]
    rw [ntt_paramT_eq_ntt L threads 32 256 8 hL31 A w hlena (fun h _ => hthr2 h)]
    exact bp_ntt_dft L hL32 A w hlena h1 hneg
  have hbfft : bp_ntt_parallel threads B w = dft B w := by
    simp only [bp_ntt_parallel]
    rw [ntt_paramT_eq_ntt L threads 32 256 8 hL31 B w hlenb (fun h _ => hthr2 h)]
    exact bp_ntt_dft L hL32 B w hlenb h1 hneg
  have hcfft : bpmul_pointwise threads (2 ^ L) (dft A w) (dft B w) =
      ofFun (fun i => toFun (dft A w) i * toFun (dft B w) i) (2 ^ L) :=
    bpmul_pointwise_eq threads (2 ^ L) (dft A w) (dft B w) hthr2
  have hinvntt : bp_ntt_parallel threads
      (ofFun (fun i => toFun (dft A w) i * toFun (dft B w) i) (2 ^ L)) (binv w) =
      dft (ofFun (fun i => toFun (dft A w) i * toFun (dft B w) i) (2 ^ L)) w⁻¹ := by
    rw [binv_eq_inv]
    simp only [bp_ntt_parallel]
    rw [ntt_paramT_eq_ntt L threads 32 256 8 hL31 _ _ (ofFun_length _ _)
      (fun h _ => hthr2 h)]
    exact bp_ntt_dft L hL32 _ _ (ofFun_length _ _) h1i hnegi
  have hdlen : (ofFun (fun i => toFun (dft A w) i * toFun (dft B w) i) (2 ^ L)).length =
      2 ^ L := ofFun_length _ _
  have houter : dft (ofFun (fun i => toFun (dft A w) i * toFun (dft B w) i) (2 ^ L)) w⁻¹ =
      ofFun (fun t => ∑ j ∈ Finset.range (2 ^ L),
        toFun (ofFun (fun s => toFun (dft A w) s * toFun (dft B w) s) (2 ^ L)) j *
          w⁻¹ ^ (t * j)) (2 ^ L) := by
    rw [dft_as_ofFun (ofFun (fun i => toFun (dft A w) i * toFun (dft B w) i) (2 ^ L)) w⁻¹,
      hdlen]
  have hAeval : ∀ t, t < 2 ^ L → toFun (dft A w) t =
      ∑ k ∈ Finset.range (2 ^ L), toFun a k * w ^ (t * k) := by
    intro t ht
    rw [dft_as_ofFun A w, hlena, toFun_ofFun _ _ _ ht]
    show ∑ k ∈ Finset.range (2 ^ L), toFun A k * w ^ (t * k) = _
    refine Finset.sum_congr rfl (fun k _ => ?_)
    rw [hAdef, toFun_append_replicate]
  have hBeval : ∀ t, t < 2 ^ L → toFun (dft B w) t =
      ∑ k ∈ Finset.range (2 ^ L), toFun b k * w ^ (t * k) := by
    intro t ht
    rw [dft_as_ofFun B w, hlenb, toFun_ofFun _ _ _ ht]
    show ∑ k ∈ Finset.range (2 ^ L), toFun B k * w ^ (t * k) = _
    refine Finset.sum_congr rfl (fun k _ => ?_)
    rw [hBdef, toFun_append_replicate]
  rw [hafft, hbfft, hcfft, hinvntt, houter, map_ofFun, take_ofFun _ _ _ hge, bpmul_as_ofFun]
  apply ofFun_congr
  intro i hi
  show (∑ j ∈ Finset.range (2 ^ L),
      toFun (ofFun (fun s => toFun (dft A w) s * toFun (dft B w) s) (2 ^ L)) j *
        w⁻¹ ^ (i * j)) * binv ((2 ^ L : Nat) : Belt) =
    ∑ j ∈ Finset.range (i + 1), toFun a j * toFun b (i - j)
  have hmain : ∑ j ∈ Finset.range (2 ^ L),
      toFun (ofFun (fun s => toFun (dft A w) s * toFun (dft B w) s) (2 ^ L)) j *
        w⁻¹ ^ (i * j) =
      ∑ t ∈ Finset.range (2 ^ L),
        ((∑ j ∈ Finset.range (2 ^ L), toFun a j * w ^ (t * j)) *
         (∑ k ∈ Finset.range (2 ^ L), toFun b k * w ^ (t * k))) * w⁻¹ ^ (i * t) := by
    refine Finset.sum_congr rfl (fun t ht => ?_)
    rw [toFun_ofFun _ _ _ (Finset.mem_range.mp ht)]
    show toFun (dft A w) t * toFun (dft B w) t * w⁻¹ ^ (i * t) = _
    rw [hAeval t (Finset.mem_range.mp ht), hBeval t (Finset.mem_range.mp ht)]
  rw [hmain, fft_conv_coeff w (2 ^ L) horder (by positivity) a b hge i hi,
    binv_eq_inv, mul_assoc, mul_inv_cancel₀ hcast, mul_one]

/-- Witness for amended C5 on the spec's own example: multiplying [1,2,3] by
[4,5] through the FFT pipeline with one thread yields the naive product
[4, 13, 22, 15]. -/
theorem c5_fft_mult_matches_naive_amended_witness :
    bpmul_fft_parallel 1 [1, 2, 3] [4, 5] 4 = .ok [4, 13, 22, 15] := by
  have h := c5_fft_mult_matches_naive_amended 1 [1, 2, 3] [4, 5] (by decide) (by decide)
    (by norm_num) (by omega)
  have h4 : ([1, 2, 3] : List Belt).length + ([4, 5] : List Belt).length - 1 = 4 := rfl
  rw [h4] at h
  have hmul : bpmul ([1, 2, 3] : List Belt) [4, 5] = [4, 13, 22, 15] := by decide
  rw [hmul] at h
  exact h

/-! ### Behaviour at length exactly 2^32, where the `u32` loop bound wraps -/

lemma bitrevSwapAux_zero (logn : Nat) (x : Nat → Belt) : bitrevSwapAux logn 0 x = x := rfl

lemma nttStagesSeq_dft_of_init (l : Nat) (root : Belt) (x0 init : Nat → Belt)
    (h1 : root ^ 2 ^ l = 1) (hneg : 1 ≤ l → root ^ 2 ^ (l - 1) = -1)
    (hinit : ∀ b, b < 2 ^ l → init b = x0 (brev l b)) (t : Nat) (ht : t < 2 ^ l) :
    nttStagesSeq root (2 ^ l) l 1 init t =
      ∑ j ∈ Finset.range (2 ^ l), x0 j * root ^ (t * j) := by
  have hbase : ∀ b t2, b < 2 ^ (l - 0) → t2 < 2 ^ 0 →
      init (b * 2 ^ 0 + t2) = ∑ j ∈ Finset.range (2 ^ 0),
        x0 (2 ^ (l - 0) * j + brev (l - 0) b) * (root ^ 2 ^ (l - 0)) ^ (t2 * j) := by
    intro b t2 hb ht2
    have ht20 : t2 = 0 := by omega
    subst ht20
    simp only [Nat.sub_zero, pow_zero, mul_one, add_zero] at hb ⊢
    rw [hinit b hb, Finset.sum_range_one]
    simp
  exact nttStagesSeq_spec l root x0 h1 hneg l 0 init (by omega) hbase t ht

lemma ntt_parallel_one_trunc (bp : List Belt) (root : Belt) (hlen : bp.length = 2 ^ 32) :
    bp_ntt_parallel 1 bp root =
      ofFun (nttStagesSeq root (2 ^ 32) 32 1 (toFun bp)) (2 ^ 32) := by
  simp only [bp_ntt_parallel, bp_ntt_paramT]
  rw [hlen]
  rw [if_neg (by norm_num : ¬(2 : Nat) ^ 32 = 1), ilog2_two_pow,
    if_neg (by norm_num : ¬(32 ≤ 2 ^ 32 ∧ 1 < 1)), Nat.mod_self, bitrevSwapAux_zero]
  have hstages : nttStages 1 8 root (2 ^ 32) 32 1 (toFun bp) =
      nttStagesSeq root (2 ^ 32) 32 1 (toFun bp) :=
    nttStages_eq_seq 1 8 root 32 32 0 (toFun bp) (by omega)
  rw [hstages]

lemma ntt_one_trunc_eval (bp : List Belt) (root : Belt) (hlen : bp.length = 2 ^ 32)
    (h1 : root ^ 2 ^ 32 = 1) (hneg : root ^ 2 ^ 31 = -1) (t : Nat) (ht : t < 2 ^ 32) :
    toFun (bp_ntt_parallel 1 bp root) t =
      ∑ j ∈ Finset.range (2 ^ 32), toFun bp (brev 32 j) * root ^ (t * j) := by
  rw [ntt_parallel_one_trunc bp root hlen, toFun_ofFun _ _ _ ht]
  exact nttStagesSeq_dft_of_init 32 root (fun j => toFun bp (brev 32 j)) (toFun bp) h1
    (fun _ => hneg)
    (fun b hb => by
      show toFun bp b = toFun bp (brev 32 (brev 32 b))
      rw [brev_brev 32 b hb]) t ht

lemma ntt_two_chunked_eval (bp : List Belt) (root : Belt) (hlen : bp.length = 2 ^ 32)
    (h1 : root ^ 2 ^ 32 = 1) (hneg : root ^ 2 ^ 31 = -1) (t : Nat) (ht : t < 2 ^ 32) :
    toFun (bp_ntt_parallel 2 bp root) t =
      ∑ j ∈ Finset.range (2 ^ 32), toFun bp j * root ^ (t * j) := by
  have hunf : bp_ntt_parallel 2 bp root =
      ofFun (nttStagesSeq root (2 ^ 32) 32 1 (chunkedGather 2 (2 ^ 32) 32 (toFun bp)))
        (2 ^ 32) := by
    simp only [bp_ntt_parallel, bp_ntt_paramT]
    rw [hlen]
    rw [if_neg (by norm_num : ¬(2 : Nat) ^ 32 = 1), ilog2_two_pow,
      if_pos (by norm_num : 32 ≤ 2 ^ 32 ∧ 1 < 2),
      if_neg (by norm_num : ¬(2 : Nat) ^ 32 < 256)]
    have hstages : nttStages 2 8 root (2 ^ 32) 32 1
        (chunkedGather 2 (2 ^ 32) 32 (toFun bp)) =
        nttStagesSeq root (2 ^ 32) 32 1 (chunkedGather 2 (2 ^ 32) 32 (toFun bp)) :=
      nttStages_eq_seq 2 8 root 32 32 0 _ (by omega)
    rw [hstages]
  rw [hunf, toFun_ofFun _ _ _ ht]
  have hcongr : nttStagesSeq root (2 ^ 32) 32 1 (chunkedGather 2 (2 ^ 32) 32 (toFun bp)) t =
      nttStagesSeq root (2 ^ 32) 32 1 (fun b => toFun bp (brev 32 b)) t := by
    refine nttStagesSeq_congr root 32 32 0 _ _ (by omega) ?_ t ht
    intro s hs
    rw [chunkedGather_eq 2 (2 ^ 32) 32 (toFun bp) (by omega) (by norm_num) s hs,
      bitreverse_eq_brev s 32 le_rfl hs]
  rw [hcongr]
  exact nttStagesSeq_dft_of_init 32 root (toFun bp) (fun b => toFun bp (brev 32 b)) h1
    (fun _ => hneg) (fun b hb => rfl) t ht

lemma next_pow_2_31_succ : next_power_of_two (2 ^ 31 + 1) = 2 ^ 32 := by
  obtain ⟨L, hL, hge, hmin⟩ := next_power_of_two_spec (2 ^ 31 + 1)
  have h32 : L ≤ 32 := (Nat.pow_le_pow_iff_right (by omega)).mp (hmin 32 (by norm_num))
  have h31 : 31 < L := by
    by_contra hle
    have : (2 : Nat) ^ L ≤ 2 ^ 31 := Nat.pow_le_pow_right (by omega) (by omega)
    omega
  have hL32 : L = 32 := by omega
  rw [hL, hL32]

/-- C1 (counterexample): at input length exactly 2^32 — a power of two — the
parallel and sequential code paths of the NTT are NOT bit-identical, with
the real primitive root of order 2^32 and the input that is 1 at index 1 and
0 elsewhere.  With two threads the bit-reversal runs as the (exact) chunked
parallel gather; with one thread it runs as the sequential swap loop, whose
iteration bound `n as u32` truncates to 0, so no element is permuted and the
transform output differs. -/
theorem c1_truncated_swap_loop_diverges :
    bp_ntt_parallel 2 (ofFun (fun i => if i = 1 then 1 else 0) (2 ^ 32))
        (bpow 7 ((PRIME - 1) / 2 ^ 32)) ≠
      bp_ntt_parallel 1 (ofFun (fun i => if i = 1 then 1 else 0) (2 ^ 32))
        (bpow 7 ((PRIME - 1) / 2 ^ 32)) := by
  intro hcontra
  have hlen : (ofFun (fun i => if i = 1 then (1 : Belt) else 0) (2 ^ 32)).length = 2 ^ 32 :=
    ofFun_length _ _
  have h1 : bpow 7 ((PRIME - 1) / 2 ^ 32) ^ 2 ^ 32 = 1 := root_pow_n 32 le_rfl
  have hneg : bpow 7 ((PRIME - 1) / 2 ^ 32) ^ 2 ^ 31 = -1 := by
    have h := root_pow_half 32 (by omega) le_rfl
    simpa using h
  have htf : ∀ j, j < 2 ^ 32 →
      toFun (ofFun (fun i => if i = 1 then (1 : Belt) else 0) (2 ^ 32)) j =
        if j = 1 then 1 else 0 := fun j hj => toFun_ofFun _ _ _ hj
  have hpar := ntt_two_chunked_eval _ _ hlen h1 hneg 1 (by norm_num)
  have hseq := ntt_one_trunc_eval _ _ hlen h1 hneg 1 (by norm_num)
  have hparval : ∑ j ∈ Finset.range (2 ^ 32),
      toFun (ofFun (fun i => if i = 1 then (1 : Belt) else 0) (2 ^ 32)) j *
        bpow 7 ((PRIME - 1) / 2 ^ 32) ^ (1 * j) = bpow 7 ((PRIME - 1) / 2 ^ 32) := by
    rw [Finset.sum_eq_single 1]
    · rw [htf 1 (by norm_num), if_pos rfl, one_mul, one_mul, pow_one]
    · intro j hj hjne
      rw [Finset.mem_range] at hj
      rw [htf j hj, if_neg hjne, zero_mul]
    · intro hmem
      exact absurd (Finset.mem_range.mpr (by norm_num)) hmem
  have hseqval : ∑ j ∈ Finset.range (2 ^ 32),
      toFun (ofFun (fun i => if i = 1 then (1 : Belt) else 0) (2 ^ 32)) (brev 32 j) *
        bpow 7 ((PRIME - 1) / 2 ^ 32) ^ (1 * j) = -1 := by
    rw [Finset.sum_eq_single (2 ^ 31)]
    · rw [htf (brev 32 (2 ^ 31)) (brev_lt 32 (2 ^ 31)),
        show brev 32 (2 ^ 31) = 1 from by decide, if_pos rfl, one_mul, one_mul, hneg]
    · intro j hj hjne
      rw [Finset.mem_range] at hj
      have hb : brev 32 j ≠ 1 := by
        intro hb1
        have hjj := brev_brev 32 j hj
        rw [hb1, show brev 32 1 = 2 ^ 31 from by decide] at hjj
        omega
      rw [htf (brev 32 j) (brev_lt 32 j), if_neg hb, zero_mul]
    · intro hmem
      exact absurd (Finset.mem_range.mpr (by norm_num)) hmem
  have hdiff : toFun (bp_ntt_parallel 2 (ofFun (fun i => if i = 1 then 1 else 0) (2 ^ 32))
      (bpow 7 ((PRIME - 1) / 2 ^ 32))) 1 =
      toFun (bp_ntt_parallel 1 (ofFun (fun i => if i = 1 then 1 else 0) (2 ^ 32))
      (bpow 7 ((PRIME - 1) / 2 ^ 32))) 1 :=
    congrArg (fun lst => toFun lst 1) hcontra
  rw [hpar, hseq, hparval, hseqval] at hdiff
  exact absurd hdiff (by decide)

lemma bpmul_fft_unfold (threads : Nat) (a b : List Belt) (rl L : Nat) (w : Belt)
    (hpad : next_power_of_two rl = 2 ^ L)
    (hla : a.length ≤ 2 ^ L) (hlb : b.length ≤ 2 ^ L)
    (hroot : ordered_root (2 ^ L) = .ok w) :
    bpmul_fft_parallel threads a b rl =
      .ok (((bp_ntt_parallel threads
          (bpmul_pointwise threads (2 ^ L)
            (bp_ntt_parallel threads (a ++ List.replicate (2 ^ L - a.length) 0) w)
            (bp_ntt_parallel threads (b ++ List.replicate (2 ^ L - b.length) 0) w))
          (binv w)).map (fun x => x * binv ((2 ^ L : Nat) : Belt))).take rl) := by
  have hlena : (a ++ List.replicate (2 ^ L - a.length) (0 : Belt)).length = 2 ^ L := by
    rw [List.length_append, List.length_replicate]
    omega
  have hlenb : (b ++ List.replicate (2 ^ L - b.length) (0 : Belt)).length = 2 ^ L := by
    rw [List.length_append, List.length_replicate]
    omega
  simp only [bpmul_fft_parallel, bp_fft_parallel, hpad, hlena, hlenb, hroot, bind,
    Except.bind, Except.instMonad]


/-- C5 (counterexample): a concrete operand pair on which the FFT pipeline
does NOT match naive multiplication.  Multiplying the polynomial that is 1
at index 1 (length 2^31 + 1) by the constant polynomial [1] with one thread
pads to exactly 2^32, where the sequential bit-reversal loop bound
`n as u32` truncates to 0; the unpermuted transforms make coefficient 1 of
the pipeline output equal -4 / ((w⁻¹ - 1) · 2^32) instead of the naive
product's coefficient 1, which is 1. -/
theorem c5_fft_mult_truncation_diverges :
    bpmul_fft_parallel 1 (ofFun (fun i => if i = 1 then 1 else 0) (2 ^ 31 + 1)) [1]
        (2 ^ 31 + 1) ≠
      .ok (bpmul (ofFun (fun i => if i = 1 then 1 else 0) (2 ^ 31 + 1)) [1]) := by
  intro hcontra
  have hpad : next_power_of_two (2 ^ 31 + 1) = 2 ^ 32 := next_pow_2_31_succ
  have hlena0 : (ofFun (fun i => if i = 1 then (1 : Belt) else 0) (2 ^ 31 + 1)).length =
      2 ^ 31 + 1 := ofFun_length _ _
  have hlenA : ((ofFun (fun i => if i = 1 then (1 : Belt) else 0) (2 ^ 31 + 1)) ++
      List.replicate (2 ^ 32 - (2 ^ 31 + 1)) 0).length = 2 ^ 32 := by
    rw [List.length_append, List.length_replicate, hlena0]
    norm_num
  have hlenB : (([1] : List Belt) ++ List.replicate (2 ^ 32 - 1) 0).length = 2 ^ 32 := by
    rw [List.length_append, List.length_replicate]
    norm_num
  have hroot : ordered_root (2 ^ 32) = .ok (bpow 7 ((PRIME - 1) / 2 ^ 32)) :=
    ordered_root_two_pow 32 le_rfl
  rw [bpmul_fft_unfold 1 (ofFun (fun i => if i = 1 then 1 else 0) (2 ^ 31 + 1)) [1]
    (2 ^ 31 + 1) 32 (bpow 7 ((PRIME - 1) / 2 ^ 32)) hpad (by rw [hlena0]; norm_num)
    (by norm_num) hroot, Except.ok.injEq] at hcontra
  rw [hlena0, List.length_singleton] at hcontra
  set w := bpow 7 ((PRIME - 1) / 2 ^ 32) with hw
  set A := (ofFun (fun i => if i = 1 then (1 : Belt) else 0) (2 ^ 31 + 1)) ++
      List.replicate (2 ^ 32 - (2 ^ 31 + 1)) (0 : Belt) with hAdef
  set B := ([1] : List Belt) ++ List.replicate (2 ^ 32 - 1) (0 : Belt) with hBdef
  have h1 : w ^ 2 ^ 32 = 1 := by
    rw [hw]
    exact root_pow_n 32 le_rfl
  have hneg : w ^ 2 ^ 31 = -1 := by
    rw [hw]
    have h := root_pow_half 32 (by omega) le_rfl
    simpa using h
  have h1i : w⁻¹ ^ 2 ^ 32 = 1 := by rw [inv_pow, h1, inv_one]
  have hnegi : w⁻¹ ^ 2 ^ 31 = -1 := by
    rw [inv_pow, hneg]
    exact inv_eq_of_mul_eq_one_right (by ring)
  have hNne : ((2 ^ 32 : Nat) : Belt) ≠ 0 := by
    rw [Ne, ZMod.natCast_zmod_eq_zero_iff_dvd]
    intro hdvd
    have hle := Nat.le_of_dvd (by positivity) hdvd
    have hPlt : (2 : Nat) ^ 32 < PRIME := by norm_num [PRIME]
    omega
  have hAfun : ∀ k, toFun A k = if k = 1 then (1 : Belt) else 0 := by
    intro k
    rw [hAdef, toFun_append_replicate]
    by_cases hk : k < 2 ^ 31 + 1
    · exact toFun_ofFun _ _ _ hk
    · rw [if_neg (by omega)]
      simp only [toFun]
      rw [List.getD_eq_default _ _ (by rw [hlena0]; omega)]
  have hBfun : ∀ k, toFun B k = if k = 0 then (1 : Belt) else 0 := by
    intro k
    rw [hBdef, toFun_append_replicate]
    match k with
    | 0 => rfl
    | k + 1 =>
        rw [if_neg (by omega)]
        simp only [toFun]
        rw [List.getD_eq_default _ _ (by simp)]
  have hfA : ∀ t, t < 2 ^ 32 → toFun (bp_ntt_parallel 1 A w) t = w ^ (t * 2 ^ 31) := by
    intro t ht
    rw [ntt_one_trunc_eval A w hlenA h1 hneg t ht]
    rw [Finset.sum_eq_single (2 ^ 31)]
    · rw [hAfun (brev 32 (2 ^ 31)), show brev 32 (2 ^ 31) = 1 from by decide, if_pos rfl,
        one_mul]
    · intro j hj hjne
      rw [Finset.mem_range] at hj
      have hb : brev 32 j ≠ 1 := by
        intro hb1
        have hjj := brev_brev 32 j hj
        rw [hb1, show brev 32 1 = 2 ^ 31 from by decide] at hjj
        omega
      rw [hAfun (brev 32 j), if_neg hb, zero_mul]
    · intro hmem
      exact absurd (Finset.mem_range.mpr (by norm_num)) hmem
  have hfB : ∀ t, t < 2 ^ 32 → toFun (bp_ntt_parallel 1 B w) t = 1 := by
    intro t ht
    rw [ntt_one_trunc_eval B w hlenB h1 hneg t ht]
    rw [Finset.sum_eq_single 0]
    · rw [hBfun (brev 32 0), show brev 32 0 = 0 from by decide, if_pos rfl, one_mul,
        Nat.mul_zero, pow_zero]
    · intro j hj hjne
      rw [Finset.mem_range] at hj
      have hb : brev 32 j ≠ 0 := by
        intro hb1
        have hjj := brev_brev 32 j hj
        rw [hb1, show brev 32 0 = 0 from by decide] at hjj
        omega
      rw [hBfun (brev 32 j), if_neg hb, zero_mul]
    · intro hmem
      exact absurd (Finset.mem_range.mpr (by norm_num)) hmem
  have hCeq : bpmul_pointwise 1 (2 ^ 32) (bp_ntt_parallel 1 A w) (bp_ntt_parallel 1 B w) =
      ofFun (fun i => toFun (bp_ntt_parallel 1 A w) i * toFun (bp_ntt_parallel 1 B w) i)
        (2 ^ 32) :=
    bpmul_pointwise_eq 1 (2 ^ 32) _ _ (by omega)
  rw [hCeq] at hcontra
  set C := ofFun (fun i => toFun (bp_ntt_parallel 1 A w) i * toFun (bp_ntt_parallel 1 B w) i)
    (2 ^ 32) with hCdef
  have hlenC : C.length = 2 ^ 32 := by
    rw [hCdef]
    exact ofFun_length _ _
  have hCfun : ∀ j, j < 2 ^ 32 → toFun C j = w ^ (j * 2 ^ 31) := by
    intro j hj
    rw [hCdef, toFun_ofFun _ _ _ hj]
    show toFun (bp_ntt_parallel 1 A w) j * toFun (bp_ntt_parallel 1 B w) j = _
    rw [hfA j hj, hfB j hj, mul_one]
  simp only [binv_eq_inv] at hcontra
  rw [ntt_parallel_one_trunc C w⁻¹ hlenC, map_ofFun, take_ofFun _ _ _ (by norm_num)]
    at hcontra
  have hdiff : toFun (ofFun (fun t => nttStagesSeq w⁻¹ (2 ^ 32) 32 1 (toFun C) t *
      ((2 ^ 32 : Nat) : Belt)⁻¹) (2 ^ 31 + 1)) 1 =
      toFun (bpmul (ofFun (fun i => if i = 1 then 1 else 0) (2 ^ 31 + 1)) [1]) 1 :=
    congrArg (fun lst => toFun lst 1) hcontra
  have hLval : toFun (ofFun (fun t => nttStagesSeq w⁻¹ (2 ^ 32) 32 1 (toFun C) t *
      ((2 ^ 32 : Nat) : Belt)⁻¹) (2 ^ 31 + 1)) 1 =
      nttStagesSeq w⁻¹ (2 ^ 32) 32 1 (toFun C) 1 * ((2 ^ 32 : Nat) : Belt)⁻¹ :=
    toFun_ofFun _ _ 1 (by norm_num)
  have hRval : toFun (bpmul (ofFun (fun i => if i = 1 then (1 : Belt) else 0) (2 ^ 31 + 1))
      [1]) 1 = 1 := by
    rw [bpmul_as_ofFun]
    rw [toFun_ofFun _ _ 1 (by rw [hlena0]; norm_num)]
    show (∑ j ∈ Finset.range (1 + 1),
        toFun (ofFun (fun i => if i = 1 then (1 : Belt) else 0) (2 ^ 31 + 1)) j *
          toFun [1] (1 - j)) = 1
    rw [Finset.sum_range_succ, Finset.sum_range_one]
    rw [toFun_ofFun _ _ 0 (by norm_num), toFun_ofFun _ _ 1 (by norm_num)]
    norm_num [toFun]
  have hstage : nttStagesSeq w⁻¹ (2 ^ 32) 32 1 (toFun C) 1 =
      ∑ j ∈ Finset.range (2 ^ 32), toFun C (brev 32 j) * w⁻¹ ^ (1 * j) :=
    nttStagesSeq_dft_of_init 32 w⁻¹ (fun j => toFun C (brev 32 j)) (toFun C) h1i
      (fun _ => hnegi)
      (fun b hb => by
        show toFun C b = toFun C (brev 32 (brev 32 b))
        rw [brev_brev 32 b hb]) 1 (by norm_num)
  have hhalf1 : ∑ s ∈ Finset.range (2 ^ 31), w ^ (brev 32 s * 2 ^ 31) * w⁻¹ ^ s =
      ∑ s ∈ Finset.range (2 ^ 31), w⁻¹ ^ s := by
    refine Finset.sum_congr rfl (fun s hs => ?_)
    rw [Finset.mem_range] at hs
    have hb : brev 32 s = 2 * brev 31 s := by
      have h := brev_add_pow 31 s 0 (by omega) hs
      simpa using h
    have hwterm : w ^ ((2 * brev 31 s) * 2 ^ 31) = 1 := by
      have hexp : (2 * brev 31 s) * 2 ^ 31 = 2 ^ 32 * brev 31 s := by
        have h2 : (2 : Nat) * 2 ^ 31 = 2 ^ 32 := by norm_num
        calc (2 * brev 31 s) * 2 ^ 31 = (2 * 2 ^ 31) * brev 31 s := by ring
          _ = 2 ^ 32 * brev 31 s := by rw [h2]
      rw [hexp, pow_mul, h1, one_pow]
    rw [hb, hwterm, one_mul]
  have hhalf2 : ∑ s ∈ Finset.range (2 ^ 31),
      w ^ (brev 32 (2 ^ 31 + s) * 2 ^ 31) * w⁻¹ ^ (2 ^ 31 + s) =
      ∑ s ∈ Finset.range (2 ^ 31), w⁻¹ ^ s := by
    refine Finset.sum_congr rfl (fun s hs => ?_)
    rw [Finset.mem_range] at hs
    have hb : brev 32 (2 ^ 31 + s) = 2 * brev 31 s + 1 := by
      rw [Nat.add_comm]
      have h := brev_add_pow 31 s 1 (by omega) hs
      simpa using h
    have hwterm : w ^ ((2 * brev 31 s + 1) * 2 ^ 31) = -1 := by
      have hexp : (2 * brev 31 s + 1) * 2 ^ 31 = 2 ^ 32 * brev 31 s + 2 ^ 31 := by
        have h2 : (2 : Nat) * 2 ^ 31 = 2 ^ 32 := by norm_num
        calc (2 * brev 31 s + 1) * 2 ^ 31 = (2 * 2 ^ 31) * brev 31 s + 2 ^ 31 := by ring
          _ = 2 ^ 32 * brev 31 s + 2 ^ 31 := by rw [h2]
      rw [hexp, pow_add, pow_mul, h1, one_pow, one_mul, hneg]
    have hvterm : w⁻¹ ^ (2 ^ 31 + s) = -w⁻¹ ^ s := by
      rw [pow_add, hnegi]
      ring
    rw [hb, hwterm, hvterm]
    ring
  have hsum : ∑ j ∈ Finset.range (2 ^ 32), toFun C (brev 32 j) * w⁻¹ ^ (1 * j) =
      ∑ j ∈ Finset.range (2 ^ 31), w⁻¹ ^ j + ∑ j ∈ Finset.range (2 ^ 31), w⁻¹ ^ j := by
    have hstep : ∀ j ∈ Finset.range (2 ^ 32),
        toFun C (brev 32 j) * w⁻¹ ^ (1 * j) = w ^ (brev 32 j * 2 ^ 31) * w⁻¹ ^ j := by
      intro j hj
      rw [Finset.mem_range] at hj
      rw [hCfun (brev 32 j) (brev_lt 32 j), one_mul]
    calc ∑ j ∈ Finset.range (2 ^ 32), toFun C (brev 32 j) * w⁻¹ ^ (1 * j)
        = ∑ j ∈ Finset.range (2 ^ 32), w ^ (brev 32 j * 2 ^ 31) * w⁻¹ ^ j :=
          Finset.sum_congr rfl hstep
      _ = ∑ j ∈ Finset.range (2 ^ 31 + 2 ^ 31), w ^ (brev 32 j * 2 ^ 31) * w⁻¹ ^ j := by
          rw [show (2 : Nat) ^ 32 = 2 ^ 31 + 2 ^ 31 from by norm_num]
      _ = (∑ j ∈ Finset.range (2 ^ 31), w ^ (brev 32 j * 2 ^ 31) * w⁻¹ ^ j) +
          ∑ j ∈ Finset.range (2 ^ 31),
            w ^ (brev 32 (2 ^ 31 + j) * 2 ^ 31) * w⁻¹ ^ (2 ^ 31 + j) :=
          Finset.sum_range_add (fun j => w ^ (brev 32 j * 2 ^ 31) * w⁻¹ ^ j)
            (2 ^ 31) (2 ^ 31)
      _ = ∑ j ∈ Finset.range (2 ^ 31), w⁻¹ ^ j + ∑ j ∈ Finset.range (2 ^ 31), w⁻¹ ^ j := by
          rw [hhalf1, hhalf2]
  rw [hLval, hRval, hstage, hsum] at hdiff
  have hSN : (∑ j ∈ Finset.range (2 ^ 31), w⁻¹ ^ j) +
      (∑ j ∈ Finset.range (2 ^ 31), w⁻¹ ^ j) = ((2 ^ 32 : Nat) : Belt) := by
    have h4 : ((∑ j ∈ Finset.range (2 ^ 31), w⁻¹ ^ j +
        ∑ j ∈ Finset.range (2 ^ 31), w⁻¹ ^ j) *
        ((2 ^ 32 : Nat) : Belt)⁻¹) * ((2 ^ 32 : Nat) : Belt) =
        1 * ((2 ^ 32 : Nat) : Belt) :=
      congrArg (fun z => z * ((2 ^ 32 : Nat) : Belt)) hdiff
    rw [mul_assoc, inv_mul_cancel₀ hNne, mul_one, one_mul] at h4
    exact h4
  have hgeom : (∑ j ∈ Finset.range (2 ^ 31), w⁻¹ ^ j) * (w⁻¹ - 1) = -2 := by
    rw [geom_sum_mul, hnegi]
    norm_num
  have hfin : ((2 ^ 32 : Nat) : Belt) * (w⁻¹ - 1) = -4 := by
    rw [← hSN, add_mul, hgeom]
    norm_num
  rw [hw] at hfin
  rw [← binv_eq_inv] at hfin
  exact absurd hfin (by decide)
